import Mathlib

/-!
# Verification of the maze game (maze.c)

This file gives a shallow embedding of the maze program: the grid loader
(`load_maze`), the reachability predicate (`is_valid`), player movement
(`move_player`), the BFS shortest-path engine (`bfs_shortest` together with
the parent-walk of `mark_shortest_path`), and the randomized DFS path
enumerator (`dfs_find_one_path`).  Files are modelled as raw character
lists; reading is modelled at the granularity of `fgets` calls with the
program's 105-byte line buffer.  Machine integers are modelled as `Int`
(all quantities involved stay far below any overflow boundary).  Theorems
settling the specification claims follow the definitions.
-/

set_option maxRecDepth 16384

namespace MazeC

/-- A cell position, as a pair of C `int` coordinates (row, column). -/
abbrev Cell := Int × Int

/-- `MAXR` from the source: maximum number of maze rows. -/
def MAXR : Nat := 105

/-- `MAXC` from the source: maximum number of maze columns (size of the
`fgets` line buffer, so at most `MAXC - 1 = 104` characters are read per
call). -/
def MAXC : Nat := 105

/-- `QSIZE = MAXR * MAXC` from the source: capacity of the BFS circular
queue. -/
def QSIZE : Nat := MAXR * MAXC

/-- `MAX_PATHS_TO_SHOW` from the source. -/
def MAX_PATHS_TO_SHOW : Nat := 20

/-- The global state of the program that the loader and the searches read:
the `maze` array (modelled as a map from row index to the row contents
written there), the dimensions `rows`/`cols`, the start position
`(sr, sc)` and the exit position `(er, ec)`. -/
structure G where
  maze : Nat → List Char
  rows : Nat
  cols : Nat
  sr : Int
  sc : Int
  er : Int
  ec : Int

/-- Reading `maze[r][c]`; only ever relied upon for in-bounds indices. -/
def cellAt (g : G) (r c : Int) : Char :=
  (g.maze r.toNat).getD c.toNat ' '

/-- `is_valid` from the source: inside the maze and not a wall. -/
def is_valid (g : G) (r c : Int) : Bool :=
  if r < 0 ∨ r ≥ (g.rows : Int) ∨ c < 0 ∨ c ≥ (g.cols : Int) then false
  else if cellAt g r c = '#' then false
  else true

/-- `dr` from the source: row deltas for up, down, left, right. -/
def dr : List Int := [-1, 1, 0, 0]

/-- `dc` from the source: column deltas for up, down, left, right. -/
def dc : List Int := [0, 0, -1, 1]

/-- The neighbour of a cell in direction `d` (an index into `dr`/`dc`). -/
def nbr (p : Cell) (d : Nat) : Cell :=
  (p.1 + dr.getD d 0, p.2 + dc.getD d 0)

/-- `move_player` from the source, restricted to its effect on the player
position `(pr, pc)`: recognized keys select a cardinal delta, and the move
is applied only if the target cell `is_valid`; otherwise (and for
unrecognized keys) the position is unchanged. -/
def move_player (g : G) (ch : Char) (pr pc : Int) : Int × Int :=
  let go (nr nc : Int) : Int × Int :=
    if is_valid g nr nc then (nr, nc) else (pr, pc)
  if ch = 'w' ∨ ch = 'W' then go (pr - 1) pc
  else if ch = 's' ∨ ch = 'S' then go (pr + 1) pc
  else if ch = 'a' ∨ ch = 'A' then go pr (pc - 1)
  else if ch = 'd' ∨ ch = 'D' then go pr (pc + 1)
  else (pr, pc)

/-- The cardinal delta a direction key stands for, following the spec:
`w`/`W` up, `s`/`S` down, `a`/`A` left, `d`/`D` right; `none` for any
other character. -/
def keyDelta (ch : Char) : Option (Int × Int) :=
  if ch = 'w' ∨ ch = 'W' then some (-1, 0)
  else if ch = 's' ∨ ch = 'S' then some (1, 0)
  else if ch = 'a' ∨ ch = 'A' then some (0, -1)
  else if ch = 'd' ∨ ch = 'D' then some (0, 1)
  else none

/-- C9.  For every input character, if the character is not a recognized
direction key then `move_player` leaves the player position unchanged; if
it is recognized, with delta `(a, b)`, then the position becomes
`(pr + a, pc + b)` when that target is in bounds and passable, and stays
`(pr, pc)` otherwise. -/
theorem move_player_frame (g : G) (ch : Char) (pr pc : Int) :
    (keyDelta ch = none → move_player g ch pr pc = (pr, pc)) ∧
    (∀ a b : Int, keyDelta ch = some (a, b) →
      move_player g ch pr pc =
        if is_valid g (pr + a) (pc + b) then (pr + a, pc + b) else (pr, pc)) := by
  constructor
  · intro h
    unfold keyDelta at h
    unfold move_player
    split_ifs at h ⊢ <;> simp_all
  · intro a b h
    unfold keyDelta at h
    unfold move_player
    split_ifs at h <;>
      (simp only [Option.some.injEq, Prod.mk.injEq] at h
       obtain ⟨ha, hb⟩ := h
       subst ha; subst hb
       simp only [sub_eq_add_neg, add_zero]
       split_ifs <;> first | rfl | tauto)

/-- Witness for `move_player_frame`: on a concrete one-row grid `"S E"`,
the key `'d'` moves the player right from the start, and `'x'` is
rejected. -/
theorem move_player_frame_witness :
    (keyDelta 'd' = some (0, 1) ∧
      move_player ⟨fun i => if i = 0 then ['S', ' ', 'E'] else [], 1, 3, 0, 0, 0, 2⟩ 'd' 0 0 = (0, 1)) ∧
    (keyDelta 'x' = none ∧
      move_player ⟨fun i => if i = 0 then ['S', ' ', 'E'] else [], 1, 3, 0, 0, 0, 2⟩ 'x' 0 0 = (0, 0)) := by
  refine ⟨⟨by decide, ?_⟩, ⟨by decide, ?_⟩⟩
  · have h := (move_player_frame ⟨fun i => if i = 0 then ['S', ' ', 'E'] else [], 1, 3, 0, 0, 0, 2⟩ 'd' 0 0).2
      0 1 (by decide)
    rw [h]
    decide
  · exact (move_player_frame ⟨fun i => if i = 0 then ['S', ' ', 'E'] else [], 1, 3, 0, 0, 0, 2⟩ 'x' 0 0).1
      (by decide)

/-! ## The grid loader -/

/-- One `fgets(line, MAXC, f)` call on the remaining file contents:
returns `none` at end of file, otherwise the chunk read (at most
`MAXC - 1 = 104` characters, stopping after a newline) and the rest of
the file. -/
def fgets104 (s : List Char) : Option (List Char × List Char) :=
  if s = [] then none
  else
    let n := match s.findIdx? (fun c => c = '\n') with
      | some i => min (i + 1) 104
      | none => min s.length 104
    some (s.take n, s.drop n)

/-- Stripping the trailing newline from a read chunk, as the loader does
(`if (len > 0 && line[len-1] == '\n') ...`). -/
def stripNl (l : List Char) : List Char :=
  if l.getLast? = some '\n' then l.dropLast else l

theorem fgets104_rest_lt {s line rest : List Char}
    (h : fgets104 s = some (line, rest)) : rest.length < s.length := by
  unfold fgets104 at h
  split_ifs at h with hs
  simp only [Option.some.injEq, Prod.mk.injEq] at h
  have hlen : 0 < s.length := List.length_pos.mpr hs
  obtain ⟨h1, h2⟩ := h
  have hn : 1 ≤ (match s.findIdx? (fun c => c = '\n') with
      | some i => min (i + 1) 104
      | none => min s.length 104) := by
    split
    · exact le_min (by omega) (by omega)
    · exact le_min hlen (by omega)
  have hr : rest.length = s.length -
      (match s.findIdx? (fun c => c = '\n') with
        | some i => min (i + 1) 104
        | none => min s.length 104) := by
    rw [← h2, List.length_drop]
  omega

/-- The read loop of `load_maze`, with a structural fuel parameter (one
unit per `fgets` call; the loop itself terminates because every chunk is
non-empty, and `load_maze` supplies provably sufficient fuel):
repeatedly `fgets` a chunk, strip the trailing newline, skip empty
chunks, store the row (`strcpy`), set `cols` from the first row or fail
on a length mismatch, and stop once `rows` reaches `MAXR`.  Returns the
updated globals and the success of the loop. -/
def loadLoopF : Nat → List Char → G → G × Bool
  | 0, _, g => (g, true)
  | fuel + 1, s, g =>
    match fgets104 s with
    | none => (g, true)
    | some (line, rest) =>
      let line := stripNl line
      if line.length = 0 then loadLoopF fuel rest g
      else
        let g1 : G := { g with maze := Function.update g.maze g.rows line }
        if g1.rows = 0 then
          let g2 : G := { g1 with cols := line.length, rows := 1 }
          if MAXR ≤ g2.rows then (g2, true) else loadLoopF fuel rest g2
        else if line.length ≠ g1.cols then (g1, false)
        else
          let g2 : G := { g1 with rows := g1.rows + 1 }
          if MAXR ≤ g2.rows then (g2, true) else loadLoopF fuel rest g2

/-- The read loop with its fuel instantiated: one `fgets` consumes at
least one character, so `s.length + 1` calls always suffice. -/
def loadLoop (s : List Char) (g : G) : G × Bool :=
  loadLoopF (s.length + 1) s g

theorem loadLoopF_irrel : ∀ f1 f2 : Nat, ∀ s : List Char, ∀ g : G,
    s.length < f1 → s.length < f2 → loadLoopF f1 s g = loadLoopF f2 s g := by
  intro f1
  induction f1 with
  | zero => intro f2 s g h1 _; exact absurd h1 (by omega)
  | succ f1 ih =>
    intro f2 s g h1 h2
    cases f2 with
    | zero => exact absurd h2 (by omega)
    | succ f2 =>
      show loadLoopF (f1 + 1) s g = loadLoopF (f2 + 1) s g
      unfold loadLoopF
      cases hfg : fgets104 s with
      | none => rfl
      | some lr =>
        obtain ⟨line, rest⟩ := lr
        have hlt := fgets104_rest_lt hfg
        dsimp only
        split_ifs <;> first | rfl | exact ih f2 rest _ (by omega) (by omega)

/-- The row-major scan of `load_maze` locating `'S'` and `'E'`:
both result pairs start at `(-1, -1)` and are overwritten at every
occurrence, so the last-seen occurrence of each marker wins. -/
def scanSE (g : G) : (Int × Int) × (Int × Int) :=
  (List.range g.rows).foldl (fun acc i =>
    (List.range g.cols).foldl (fun acc j =>
      let ch := (g.maze i).getD j ' '
      let acc := if ch = 'S' then (((i : Int), (j : Int)), acc.2) else acc
      if ch = 'E' then (acc.1, ((i : Int), (j : Int))) else acc) acc) ((-1, -1), (-1, -1))

/-- `load_maze` from the source, as a transformer of the global state:
`none` as the file argument models `fopen` failing.  Returns the new
globals together with the `1`/`0` success result.  Note that on failure
the partially updated globals are kept, exactly as the C globals are. -/
def load_maze (file : Option (List Char)) (g : G) : G × Bool :=
  match file with
  | none => (g, false)
  | some s =>
    let (g1, ok) := loadLoop s { g with rows := 0 }
    if !ok then (g1, false)
    else if g1.rows = 0 ∨ g1.cols = 0 then (g1, false)
    else
      let se := scanSE g1
      let g2 : G := { g1 with sr := se.1.1, sc := se.1.2, er := se.2.1, ec := se.2.2 }
      if g2.sr = -1 ∨ g2.er = -1 then (g2, false) else (g2, true)

/-! ### Proof-side descriptions of the loader -/

/-- The sequence of chunks successive `fgets` calls deliver for a file,
fuelled like `loadLoopF`. -/
def chunksOfF : Nat → List Char → List (List Char)
  | 0, _ => []
  | fuel + 1, s =>
    match fgets104 s with
    | none => []
    | some (line, rest) => line :: chunksOfF fuel rest

/-- The sequence of chunks successive `fgets` calls deliver for a file. -/
def chunksOf (s : List Char) : List (List Char) :=
  chunksOfF (s.length + 1) s

theorem chunksOfF_irrel : ∀ f1 f2 : Nat, ∀ s : List Char,
    s.length < f1 → s.length < f2 → chunksOfF f1 s = chunksOfF f2 s := by
  intro f1
  induction f1 with
  | zero => intro f2 s h1 _; exact absurd h1 (by omega)
  | succ f1 ih =>
    intro f2 s h1 h2
    cases f2 with
    | zero => exact absurd h2 (by omega)
    | succ f2 =>
      show chunksOfF (f1 + 1) s = chunksOfF (f2 + 1) s
      unfold chunksOfF
      cases hfg : fgets104 s with
      | none => rfl
      | some lr =>
        obtain ⟨line, rest⟩ := lr
        have hlt := fgets104_rest_lt hfg
        dsimp only
        rw [ih f2 rest (by omega) (by omega)]

/-- The non-empty stripped chunks of a file, in order: the candidate grid
rows the loader iterates over. -/
def procChunks (s : List Char) : List (List Char) :=
  ((chunksOf s).map stripNl).filter (fun l => !l.isEmpty)

/-- The rows the loader actually retains: the first `MAXR` candidate
rows. -/
def retainedRows (s : List Char) : List (List Char) :=
  (procChunks s).take MAXR

/-- The newline-separated lines of a file, the spec-level notion of
"line" of the text source. -/
def linesOf (s : List Char) : List (List Char) :=
  match s with
  | [] => [[]]
  | c :: rest =>
    if c = '\n' then [] :: linesOf rest
    else
      match linesOf rest with
      | [] => [[c]]
      | l :: ls => (c :: l) :: ls

/-- A reference loop equal to `loadLoop` but consuming the prepared list
of candidate rows; used to reason about the loader by list induction. -/
def refLoad : List (List Char) → G → G × Bool
  | [], g => (g, true)
  | l :: ls, g =>
    let g1 : G := { g with maze := Function.update g.maze g.rows l }
    if g1.rows = 0 then
      let g2 : G := { g1 with cols := l.length, rows := 1 }
      if MAXR ≤ g2.rows then (g2, true) else refLoad ls g2
    else if l.length ≠ g1.cols then (g1, false)
    else
      let g2 : G := { g1 with rows := g1.rows + 1 }
      if MAXR ≤ g2.rows then (g2, true) else refLoad ls g2

theorem chunksOf_none {s : List Char} (h : fgets104 s = none) :
    chunksOf s = [] := by
  unfold chunksOf chunksOfF
  rw [h]

theorem chunksOf_some {s line rest : List Char}
    (h : fgets104 s = some (line, rest)) :
    chunksOf s = line :: chunksOf rest := by
  have hlt := fgets104_rest_lt h
  show chunksOfF (s.length + 1) s = line :: chunksOfF (rest.length + 1) rest
  have e2 : chunksOfF (s.length + 1) s = line :: chunksOfF s.length rest := by
    conv_lhs => rw [chunksOfF]
    rw [h]
  rw [e2, chunksOfF_irrel s.length (rest.length + 1) rest (by omega) (by omega)]

theorem loadLoop_none {s : List Char} {g : G} (h : fgets104 s = none) :
    loadLoop s g = (g, true) := by
  unfold loadLoop loadLoopF
  rw [h]

theorem loadLoop_some {s line rest : List Char} {g : G}
    (h : fgets104 s = some (line, rest)) :
    loadLoop s g =
      (if (stripNl line).length = 0 then loadLoop rest g
       else
         let g1 : G := { g with maze := Function.update g.maze g.rows (stripNl line) }
         if g1.rows = 0 then
           let g2 : G := { g1 with cols := (stripNl line).length, rows := 1 }
           if MAXR ≤ g2.rows then (g2, true) else loadLoop rest g2
         else if (stripNl line).length ≠ g1.cols then (g1, false)
         else
           let g2 : G := { g1 with rows := g1.rows + 1 }
           if MAXR ≤ g2.rows then (g2, true) else loadLoop rest g2) := by
  have hlt := fgets104_rest_lt h
  show loadLoopF (s.length + 1) s g = _
  have e2 : loadLoopF (s.length + 1) s g =
      (if (stripNl line).length = 0 then loadLoopF s.length rest g
       else
         let g1 : G := { g with maze := Function.update g.maze g.rows (stripNl line) }
         if g1.rows = 0 then
           let g2 : G := { g1 with cols := (stripNl line).length, rows := 1 }
           if MAXR ≤ g2.rows then (g2, true) else loadLoopF s.length rest g2
         else if (stripNl line).length ≠ g1.cols then (g1, false)
         else
           let g2 : G := { g1 with rows := g1.rows + 1 }
           if MAXR ≤ g2.rows then (g2, true) else loadLoopF s.length rest g2) := by
    conv_lhs => rw [loadLoopF]
    rw [h]
  rw [e2]
  have e3 : ∀ g' : G, loadLoopF s.length rest g' = loadLoop rest g' := fun g' =>
    loadLoopF_irrel s.length (rest.length + 1) rest g' (by omega) (by omega)
  simp only [e3]

theorem loadLoop_eq_refLoad (s : List Char) (g : G) :
    loadLoop s g = refLoad (procChunks s) g := by
  cases hfg : fgets104 s with
  | none =>
    rw [loadLoop_none hfg]
    unfold procChunks
    rw [chunksOf_none hfg]
    rfl
  | some lr =>
    obtain ⟨line, rest⟩ := lr
    have hlt := fgets104_rest_lt hfg
    rw [loadLoop_some hfg]
    unfold procChunks
    rw [chunksOf_some hfg]
    simp only [List.map_cons, List.filter_cons]
    by_cases he : (stripNl line).length = 0
    · have hemp : (!(stripNl line).isEmpty) = false := by
        simp [List.isEmpty_iff, List.length_eq_zero.mp he]
      rw [if_pos he, hemp, if_neg (by simp)]
      exact loadLoop_eq_refLoad rest g
    · have hemp : (!(stripNl line).isEmpty) = true := by
        simp only [Bool.not_eq_true', List.isEmpty_iff_length_eq_zero]
        simpa using he
      rw [if_neg he, hemp, if_pos rfl]
      show _ = refLoad (stripNl line :: _) g
      rw [refLoad]
      dsimp only
      split_ifs <;>
        first
          | rfl
          | exact loadLoop_eq_refLoad rest _
termination_by s.length
decreasing_by all_goals exact hlt

theorem refLoad_pos (ls : List (List Char)) (g : G)
    (h1 : 1 ≤ g.rows) (h2 : g.rows < MAXR) :
    ((refLoad ls g).2 = true ↔
      ∀ l ∈ ls.take (MAXR - g.rows), l.length = g.cols) ∧
    ((refLoad ls g).2 = true →
      (refLoad ls g).1.rows = g.rows + min (MAXR - g.rows) ls.length ∧
      (refLoad ls g).1.cols = g.cols ∧
      (refLoad ls g).1.sr = g.sr ∧ (refLoad ls g).1.sc = g.sc ∧
      (refLoad ls g).1.er = g.er ∧ (refLoad ls g).1.ec = g.ec ∧
      ∀ i : Nat, (refLoad ls g).1.maze i =
        if g.rows ≤ i ∧ i < g.rows + min (MAXR - g.rows) ls.length
        then ls.getD (i - g.rows) [] else g.maze i) := by
  induction ls generalizing g with
  | nil =>
    refine ⟨⟨fun _ l hl => absurd hl (by simp), fun _ => rfl⟩,
            fun _ => ⟨by simp [refLoad], rfl, rfl, rfl, rfl, rfl, fun i => ?_⟩⟩
    rw [if_neg (by simp only [List.length_nil, Nat.min_zero, Nat.add_zero]; omega)]
    rfl
  | cons l ls ih =>
    have hA : 1 ≤ MAXR - g.rows := by omega
    rw [refLoad]
    dsimp only
    rw [if_neg (by omega)]
    by_cases hmis : l.length ≠ g.cols
    · rw [if_pos hmis]
      constructor
      · simp only [Bool.false_eq_true, false_iff]
        intro hall
        exact hmis (hall l (by
          have : MAXR - g.rows = (MAXR - g.rows - 1) + 1 := by omega
          rw [this, List.take_succ_cons]
          exact List.mem_cons_self _ _))
      · intro h; exact absurd h (by simp)
    · push_neg at hmis
      rw [if_neg (by simpa using hmis)]
      by_cases hcap : MAXR ≤ g.rows + 1
      · rw [if_pos hcap]
        have hAe : MAXR - g.rows = 1 := by omega
        constructor
        · simp only [true_iff]
          intro l' hl'
          rw [hAe, List.take_succ_cons, List.take_zero] at hl'
          simp only [List.mem_singleton] at hl'
          subst hl'; exact hmis
        · intro _
          refine ⟨by simp only [hAe, List.length_cons]; omega, rfl, rfl, rfl, rfl, rfl,
            fun i => ?_⟩
          simp only [hAe]
          by_cases hi : i = g.rows
          · subst hi
            rw [if_pos (by simp only [List.length_cons]; omega)]
            simp [Function.update_same]
          · rw [if_neg (by simp only [List.length_cons]; omega)]
            exact Function.update_noteq hi _ _
      · rw [if_neg hcap]
        have ih' := ih { g with maze := Function.update g.maze g.rows l, rows := g.rows + 1 } (by simp) (by simpa using hcap)
        obtain ⟨ihIff, ihSt⟩ := ih'
        constructor
        · rw [ihIff]
          have hA' : MAXR - g.rows = (MAXR - (g.rows + 1)) + 1 := by omega
          rw [hA', List.take_succ_cons]
          simp only [List.mem_cons]
          constructor
          · intro hall l' hl'
            rcases hl' with rfl | hl'
            · exact hmis
            · exact hall l' hl'
          · intro hall l' hl'
            exact hall l' (Or.inr hl')
        · intro hok
          obtain ⟨hr, hc, hs1, hs2, he1, he2, hm⟩ := ihSt hok
          refine ⟨?_, hc, hs1, hs2, he1, he2, fun i => ?_⟩
          · rw [hr]; simp only [List.length_cons]; omega
          · rw [hm i]
            by_cases hin : g.rows + 1 ≤ i ∧ i < g.rows + 1 + min (MAXR - (g.rows + 1)) ls.length
            · rw [if_pos hin, if_pos (by simp only [List.length_cons]; omega)]
              have : i - g.rows = (i - (g.rows + 1)) + 1 := by omega
              rw [this]
              rfl
            · rw [if_neg hin]
              by_cases hi : i = g.rows
              · subst hi
                rw [if_pos (by simp only [List.length_cons]; omega)]
                simp [Function.update_same]
              · rw [if_neg (by simp only [List.length_cons]; omega)]
                exact Function.update_noteq hi _ _

theorem refLoad_zero (ls : List (List Char)) (g : G) (h0 : g.rows = 0) :
    ((refLoad ls g).2 = true ↔
      ∀ l ∈ ls.take MAXR, l.length = (ls.headD []).length) ∧
    ((refLoad ls g).2 = true →
      (refLoad ls g).1.rows = min MAXR ls.length ∧
      (refLoad ls g).1.cols = (if ls.isEmpty then g.cols else (ls.headD []).length) ∧
      (refLoad ls g).1.sr = g.sr ∧ (refLoad ls g).1.sc = g.sc ∧
      (refLoad ls g).1.er = g.er ∧ (refLoad ls g).1.ec = g.ec ∧
      ∀ i : Nat, (refLoad ls g).1.maze i =
        if i < min MAXR ls.length then ls.getD i [] else g.maze i) := by
  cases ls with
  | nil =>
    refine ⟨⟨fun _ l hl => absurd hl (by simp), fun _ => rfl⟩,
            fun _ => ⟨by simp [refLoad, h0], by simp [refLoad], rfl, rfl, rfl, rfl, fun i => ?_⟩⟩
    rw [if_neg (by simp only [List.length_nil, Nat.min_zero]; omega)]
    rfl
  | cons l ls =>
    rw [refLoad]
    dsimp only
    rw [if_pos h0, if_neg (by simp [MAXR])]
    have hpp := refLoad_pos ls { g with maze := Function.update g.maze g.rows l, cols := l.length, rows := 1 } (by simp) (by simp [MAXR])
    obtain ⟨ihIff, ihSt⟩ := hpp
    constructor
    · rw [ihIff]
      have hM : MAXR = (MAXR - 1) + 1 := by simp [MAXR]
      rw [hM, List.take_succ_cons]
      simp only [List.mem_cons, List.headD_cons]
      constructor
      · intro hall l' hl'
        rcases hl' with rfl | hl'
        · rfl
        · exact hall l' hl'
      · intro hall l' hl'
        exact hall l' (Or.inr hl')
    · intro hok
      obtain ⟨hr, hc, hs1, hs2, he1, he2, hm⟩ := ihSt hok
      refine ⟨?_, ?_, hs1, hs2, he1, he2, fun i => ?_⟩
      · rw [hr]; dsimp only; simp only [List.length_cons, MAXR]; omega
      · rw [hc]; simp
      · rw [hm i]
        by_cases hin : 1 ≤ i ∧ i < 1 + min (MAXR - 1) ls.length
        · rw [if_pos hin, if_pos (by simp only [List.length_cons, MAXR] at hin ⊢; omega)]
          have : i = (i - 1) + 1 := by omega
          rw [this]
          rfl
        · rw [if_neg hin]
          by_cases hi : i = 0
          · subst hi
            rw [if_pos (by simp only [List.length_cons, MAXR] at hin ⊢; omega), h0]
            simp [Function.update_same]
          · rw [if_neg (by simp only [List.length_cons, MAXR] at hin ⊢; omega), h0]
            exact Function.update_noteq hi _ _

/-- The row-major list of cell indices the `load_maze` marker scan
visits. -/
def cellsRC (rows cols : Nat) : List (Nat × Nat) :=
  (List.range rows).bind (fun i => (List.range cols).map (fun j => (i, j)))

theorem mem_cellsRC {rows cols : Nat} {x : Nat × Nat} :
    x ∈ cellsRC rows cols ↔ x.1 < rows ∧ x.2 < cols := by
  unfold cellsRC
  constructor
  · intro hx
    rw [List.mem_bind] at hx
    obtain ⟨i, hi, hx⟩ := hx
    rw [List.mem_map] at hx
    obtain ⟨j, hj, rfl⟩ := hx
    exact ⟨List.mem_range.mp hi, List.mem_range.mp hj⟩
  · intro ⟨h1, h2⟩
    rw [List.mem_bind]
    exact ⟨x.1, List.mem_range.mpr h1, List.mem_map.mpr ⟨x.2, List.mem_range.mpr h2, rfl⟩⟩

theorem nested_foldl_aux {β : Type} (f : β → Nat × Nat → β) (C : Nat) :
    ∀ (L : List Nat) (b : β),
      L.foldl (fun acc i => (List.range C).foldl (fun acc j => f acc (i, j)) acc) b =
        (L.bind (fun i => (List.range C).map (fun j => (i, j)))).foldl f b := by
  intro L
  induction L with
  | nil => intro b; rfl
  | cons i L ih =>
    intro b
    simp only [List.foldl_cons, List.cons_bind, List.foldl_append, List.foldl_map]
    rw [ih]

theorem nested_foldl {β : Type} (f : β → Nat × Nat → β) (R C : Nat) (b : β) :
    (List.range R).foldl
        (fun acc i => (List.range C).foldl (fun acc j => f acc (i, j)) acc) b =
      (cellsRC R C).foldl f b :=
  nested_foldl_aux f C (List.range R) b

theorem foldl_pair {α β γ : Type} (f1 : β → α → β) (f2 : γ → α → γ) :
    ∀ (l : List α) (a : β) (b : γ),
      l.foldl (fun acc x => (f1 acc.1 x, f2 acc.2 x)) (a, b) =
        (l.foldl f1 a, l.foldl f2 b) := by
  intro l
  induction l with
  | nil => intro a b; rfl
  | cons x l ih => intro a b; simp only [List.foldl_cons]; exact ih _ _

theorem foldl_if_getLast {α β : Type} (p : α → Prop) [DecidablePred p] (v : α → β) :
    ∀ (l : List α) (a0 : β),
      l.foldl (fun a x => if p x then v x else a) a0 =
        (((l.filter (fun x => decide (p x))).getLast?).map v).getD a0 := by
  intro l
  induction l using List.reverseRecOn with
  | nil => intro a0; rfl
  | append_singleton l x ih =>
    intro a0
    rw [List.foldl_append, List.filter_append]
    simp only [List.foldl_cons, List.foldl_nil]
    by_cases hp : p x
    · rw [if_pos hp]
      have : List.filter (fun x => decide (p x)) [x] = [x] := by simp [hp]
      rw [this, List.getLast?_concat]
      rfl
    · rw [if_neg hp]
      have : List.filter (fun x => decide (p x)) [x] = [] := by simp [hp]
      rw [this, List.append_nil]
      exact ih a0

/-- The row-major list of cells of `g` holding the character `ch`
(within the scanned `rows × cols` window). -/
def markerCells (g : G) (ch : Char) : List (Nat × Nat) :=
  (cellsRC g.rows g.cols).filter (fun x => decide ((g.maze x.1).getD x.2 ' ' = ch))

/-- The scan keeps, for each marker, exactly the last-seen occurrence in
row-major order, and `(-1, -1)` when the marker does not occur. -/
theorem scanSE_eq (g : G) :
    scanSE g =
      ((((markerCells g 'S').getLast?).map
          (fun x => ((x.1 : Int), (x.2 : Int)))).getD (-1, -1),
       (((markerCells g 'E').getLast?).map
          (fun x => ((x.1 : Int), (x.2 : Int)))).getD (-1, -1)) := by
  have h1 : scanSE g = (cellsRC g.rows g.cols).foldl
      (fun acc x =>
        ((if (g.maze x.1).getD x.2 ' ' = 'S' then ((x.1 : Int), (x.2 : Int)) else acc.1),
         (if (g.maze x.1).getD x.2 ' ' = 'E' then ((x.1 : Int), (x.2 : Int)) else acc.2)))
      ((-1, -1), (-1, -1)) := by
    rw [← nested_foldl]
    unfold scanSE
    congr 1
    funext acc i
    congr 1
    funext acc j
    dsimp only
    split_ifs <;> rfl
  rw [h1]
  refine Eq.trans (foldl_pair
    (fun a (x : Nat × Nat) =>
      if (g.maze x.1).getD x.2 ' ' = 'S' then ((x.1 : Int), (x.2 : Int)) else a)
    (fun a (x : Nat × Nat) =>
      if (g.maze x.1).getD x.2 ' ' = 'E' then ((x.1 : Int), (x.2 : Int)) else a)
    (cellsRC g.rows g.cols) (-1, -1) (-1, -1)) ?_
  refine Prod.ext ?_ ?_
  · exact foldl_if_getLast
      (fun x : Nat × Nat => (g.maze x.1).getD x.2 ' ' = 'S')
      (fun x => ((x.1 : Int), (x.2 : Int))) (cellsRC g.rows g.cols) (-1, -1)
  · exact foldl_if_getLast
      (fun x : Nat × Nat => (g.maze x.1).getD x.2 ' ' = 'E')
      (fun x => ((x.1 : Int), (x.2 : Int))) (cellsRC g.rows g.cols) (-1, -1)

theorem mem_procChunks_ne_nil {s l : List Char} (h : l ∈ procChunks s) : l ≠ [] := by
  unfold procChunks at h
  have hp := List.of_mem_filter h
  simp only [Bool.not_eq_true', List.isEmpty_iff] at hp
  intro hc
  rw [hc] at hp
  simp at hp

theorem chunksOf_len_le (s : List Char) : ∀ l ∈ chunksOf s, l.length ≤ 104 := by
  intro l hl
  cases hfg : fgets104 s with
  | none => rw [chunksOf_none hfg] at hl; simp at hl
  | some lr =>
    obtain ⟨line, rest⟩ := lr
    have hlt := fgets104_rest_lt hfg
    rw [chunksOf_some hfg] at hl
    rcases List.mem_cons.mp hl with rfl | hl
    · unfold fgets104 at hfg
      split_ifs at hfg with hs
      simp only [Option.some.injEq, Prod.mk.injEq] at hfg
      obtain ⟨h1, _⟩ := hfg
      rw [← h1, List.length_take]
      split <;> exact le_trans (Nat.min_le_left _ _) (Nat.min_le_right _ _)
    · exact chunksOf_len_le rest l hl
termination_by s.length
decreasing_by exact hlt

theorem stripNl_len_le (l : List Char) : (stripNl l).length ≤ l.length := by
  unfold stripNl
  split_ifs
  · rw [List.length_dropLast]; omega
  · exact le_refl _

theorem mem_procChunks_len_le {s l : List Char} (h : l ∈ procChunks s) :
    l.length ≤ 104 := by
  unfold procChunks at h
  have hm := List.mem_of_mem_filter h
  rw [List.mem_map] at hm
  obtain ⟨c, hc, rfl⟩ := hm
  exact le_trans (stripNl_len_le c) (chunksOf_len_le s c hc)

theorem headD_take_MAXR {α : Type} (ls : List α) (d : α) :
    (ls.take MAXR).headD d = ls.headD d := by
  cases ls with
  | nil => rfl
  | cons a t =>
    rw [show MAXR = 104 + 1 from rfl, List.take_succ_cons]
    rfl

theorem markerCells_ne_nil_iff (g : G) (ch : Char) (R : List (List Char))
    (hrows : g.rows = R.length)
    (hmaze : ∀ i < g.rows, g.maze i = R.getD i [])
    (hlen : ∀ i < g.rows, (g.maze i).length = g.cols) :
    markerCells g ch ≠ [] ↔ ∃ r ∈ R, ch ∈ r := by
  unfold markerCells
  rw [ne_eq, List.filter_eq_nil]
  push_neg
  constructor
  · intro ⟨x, hx, hpx⟩
    rw [mem_cellsRC] at hx
    obtain ⟨hx1, hx2⟩ := hx
    simp only [decide_eq_true_eq] at hpx
    refine ⟨R.getD x.1 [], ?_, ?_⟩
    · have : x.1 < R.length := hrows ▸ hx1
      rw [List.getD_eq_getElem _ _ this]
      exact List.getElem_mem _
    · rw [← hmaze x.1 hx1]
      have hxl : x.2 < (g.maze x.1).length := by rw [hlen x.1 hx1]; exact hx2
      rw [← hpx, List.getD_eq_getElem _ _ hxl]
      exact List.getElem_mem _
  · intro ⟨r, hr, hch⟩
    rw [List.mem_iff_getElem] at hr
    obtain ⟨i, hi, rfl⟩ := hr
    rw [List.mem_iff_getElem] at hch
    obtain ⟨j, hj, hch⟩ := hch
    have hirows : i < g.rows := hrows ▸ hi
    have hmi : g.maze i = R[i] := by
      rw [hmaze i hirows, List.getD_eq_getElem _ _ hi]
    refine ⟨(i, j), ?_, ?_⟩
    · rw [mem_cellsRC]
      refine ⟨hirows, ?_⟩
      have := hlen i hirows
      rw [hmi] at this
      omega
    · simp only [decide_eq_true_eq]
      rw [hmi, List.getD_eq_getElem _ _ hj]
      exact hch

theorem int_ofNat_ne_neg_one (n : Nat) : (n : Int) ≠ -1 := by omega

theorem getD_take {α : Type} (l : List α) (n i : Nat) (d : α) (h : i < min n l.length) :
    (l.take n).getD i d = l.getD i d := by
  have h1 : i < (l.take n).length := by rw [List.length_take]; exact h
  have h2 : i < l.length := lt_of_lt_of_le h (min_le_right _ _)
  rw [List.getD_eq_getElem _ _ h1, List.getD_eq_getElem _ _ h2]
  apply List.getElem_take

/-- C6/C7/C8 workhorse: `load_maze` on an openable file succeeds exactly
when at least one candidate row is retained, all retained rows have the
length of the first one, and the retained grid contains an `'S'` and an
`'E'`. -/
theorem load_maze_ok_iff (f : List Char) (g : G) :
    (load_maze (some f) g).2 = true ↔
      (retainedRows f ≠ [] ∧
       (∀ l ∈ retainedRows f, l.length = ((retainedRows f).headD []).length) ∧
       (∃ r ∈ retainedRows f, 'S' ∈ r) ∧
       (∃ r ∈ retainedRows f, 'E' ∈ r)) := by
  rw [show retainedRows f = (procChunks f).take MAXR from rfl]
  unfold load_maze
  dsimp only
  rw [loadLoop_eq_refLoad f { g with rows := 0 }]
  obtain ⟨hIff, hSt⟩ := refLoad_zero (procChunks f) { g with rows := 0 } rfl
  rcases hres : refLoad (procChunks f) { g with rows := 0 } with ⟨g1, ok⟩
  rw [hres] at hIff hSt
  dsimp only at hIff hSt ⊢
  cases ok with
  | false =>
    show (false = true) ↔ _
    constructor
    · intro h; exact absurd h (by simp)
    · intro ⟨hne, hunif, _, _⟩
      have : (false = true) := hIff.mpr (by
        intro l hl
        rw [← headD_take_MAXR (procChunks f) []]
        exact hunif l hl)
      exact absurd this (by simp)
  | true =>
    rw [if_neg (by simp)]
    obtain ⟨hr, hc, hsr, hsc, her, hec, hm⟩ := hSt rfl
    have huni : ∀ l ∈ (procChunks f).take MAXR, l.length = ((procChunks f).headD []).length :=
      hIff.mp rfl
    cases hls : procChunks f with
    | nil =>
      rw [hls] at hr
      simp only [List.length_nil, Nat.min_zero] at hr
      rw [if_pos (Or.inl hr)]
      simp
    | cons l0 ls' =>
      rw [hls] at hr hc hm huni
      have hMv : MAXR = 105 := rfl
      have hrow1 : g1.rows ≠ 0 := by
        rw [hr]; simp only [List.length_cons, hMv]; omega
      have hl0 : l0 ∈ procChunks f := by rw [hls]; exact List.mem_cons_self _ _
      have hl0ne : l0 ≠ [] := mem_procChunks_ne_nil hl0
      have hl0len : 1 ≤ l0.length := by
        cases l0 with
        | nil => exact absurd rfl hl0ne
        | cons a t => simp
      have hcol1 : g1.cols ≠ 0 := by
        rw [hc, if_neg (by simp)]
        rw [List.headD_cons]
        omega
      rw [if_neg (by push_neg; exact ⟨hrow1, hcol1⟩)]
      -- relate the scan to the retained grid
      have hRlen : g1.rows = ((l0 :: ls').take MAXR).length := by
        rw [List.length_take, hr]
      have hRmaze : ∀ i < g1.rows, g1.maze i = ((l0 :: ls').take MAXR).getD i [] := by
        intro i hi
        rw [hm i]
        rw [hr] at hi
        rw [if_pos hi]
        exact (getD_take _ _ _ _ hi).symm
      have hRlen2 : ∀ i < g1.rows, (g1.maze i).length = g1.cols := by
        intro i hi
        rw [hRmaze i hi]
        have hiR : i < ((l0 :: ls').take MAXR).length := hRlen ▸ hi
        rw [List.getD_eq_getElem _ _ hiR]
        have hmem : ((l0 :: ls').take MAXR)[i] ∈ (l0 :: ls').take MAXR :=
          List.getElem_mem _
        rw [huni _ hmem, hc]
        simp
      have hSiff := markerCells_ne_nil_iff g1 'S' ((l0 :: ls').take MAXR) hRlen hRmaze hRlen2
      have hEiff := markerCells_ne_nil_iff g1 'E' ((l0 :: ls').take MAXR) hRlen hRmaze hRlen2
      rw [scanSE_eq g1]
      dsimp only
      have hTake : (l0 :: ls').take MAXR ≠ [] := by
        rw [show MAXR = 104 + 1 from rfl, List.take_succ_cons]
        simp
      constructor
      · intro hldone
        split_ifs at hldone with hcond
        push_neg at hcond
        obtain ⟨hS1, hE1⟩ := hcond
        refine ⟨hTake, fun l hl => by rw [headD_take_MAXR]; exact huni l hl, ?_, ?_⟩
        · rw [← hSiff]
          intro hnil
          rw [hnil] at hS1
          exact hS1 rfl
        · rw [← hEiff]
          intro hnil
          rw [hnil] at hE1
          exact hE1 rfl
      · intro ⟨_, _, hSex, hEex⟩
        have hSne := hSiff.mpr hSex
        have hEne := hEiff.mpr hEex
        rcases hSL : (markerCells g1 'S').getLast? with _ | pS
        · exact absurd (List.getLast?_eq_none_iff.mp hSL) hSne
        rcases hEL : (markerCells g1 'E').getLast? with _ | pE
        · exact absurd (List.getLast?_eq_none_iff.mp hEL) hEne
        simp only [Option.map_some', Option.getD_some]
        rw [if_neg (by
          push_neg
          exact ⟨int_ofNat_ne_neg_one _, int_ofNat_ne_neg_one _⟩)]

theorem headD_mem {α : Type} {l : List α} (h : l ≠ []) (d : α) : l.headD d ∈ l := by
  cases l with
  | nil => exact absurd rfl h
  | cons a t => exact List.mem_cons_self _ _

theorem mem_of_getLast?_eq_some {α : Type} {l : List α} {a : α}
    (h : l.getLast? = some a) : a ∈ l := by
  obtain ⟨hne, heq⟩ := List.mem_getLast?_eq_getLast (show a ∈ l.getLast? from h)
  rw [heq]
  exact List.getLast_mem _

/-- On success, the grid state `load_maze` leaves behind: dimensions
within capacity, the retained candidate rows as the grid, uniform row
lengths, and the `S`/`E` coordinates pointing at the last-seen markers. -/
theorem load_maze_state (f : List Char) (g0 g : G)
    (h : load_maze (some f) g0 = (g, true)) :
    1 ≤ g.rows ∧ g.rows ≤ MAXR ∧ 1 ≤ g.cols ∧ g.cols ≤ 104 ∧
    g.rows = (retainedRows f).length ∧
    (∀ i < g.rows, g.maze i = (retainedRows f).getD i []) ∧
    (∀ i < g.rows, (g.maze i).length = g.cols) ∧
    (∃ pS : Nat × Nat, (markerCells g 'S').getLast? = some pS ∧
      g.sr = (pS.1 : Int) ∧ g.sc = (pS.2 : Int)) ∧
    (∃ pE : Nat × Nat, (markerCells g 'E').getLast? = some pE ∧
      g.er = (pE.1 : Int) ∧ g.ec = (pE.2 : Int)) := by
  rw [show retainedRows f = (procChunks f).take MAXR from rfl]
  unfold load_maze at h
  dsimp only at h
  rw [loadLoop_eq_refLoad f { g0 with rows := 0 }] at h
  obtain ⟨hIff, hSt⟩ := refLoad_zero (procChunks f) { g0 with rows := 0 } rfl
  rcases hres : refLoad (procChunks f) { g0 with rows := 0 } with ⟨g1, ok⟩
  rw [hres] at hIff hSt h
  dsimp only at hIff hSt h
  cases ok with
  | false =>
    have h2 : false = true := congrArg Prod.snd h
    exact absurd h2 (by simp)
  | true =>
    rw [if_neg (by simp)] at h
    obtain ⟨hr, hc, hsr, hsc, her, hec, hm⟩ := hSt rfl
    have huni := hIff.mp rfl
    by_cases hz : g1.rows = 0 ∨ g1.cols = 0
    · rw [if_pos hz] at h
      have h2 : false = true := congrArg Prod.snd h
      exact absurd h2 (by simp)
    · rw [if_neg hz] at h
      push_neg at hz
      rw [scanSE_eq g1] at h
      dsimp only at h
      rcases hSL : (markerCells g1 'S').getLast? with _ | pS
      · rw [hSL] at h
        rw [if_pos (Or.inl (by simp))] at h
        have h2 : false = true := congrArg Prod.snd h
        exact absurd h2 (by simp)
      rcases hEL : (markerCells g1 'E').getLast? with _ | pE
      · rw [hEL] at h
        rw [if_pos (Or.inr (by simp))] at h
        have h2 : false = true := congrArg Prod.snd h
        exact absurd h2 (by simp)
      rw [hSL, hEL] at h
      simp only [Option.map_some', Option.getD_some] at h
      rw [if_neg (by push_neg; exact ⟨int_ofNat_ne_neg_one _, int_ofNat_ne_neg_one _⟩)] at h
      have hg : ({ g1 with sr := ((pS.1 : Nat) : Int), sc := ((pS.2 : Nat) : Int), er := ((pE.1 : Nat) : Int), ec := ((pE.2 : Nat) : Int) } : G) = g :=
        congrArg Prod.fst h
      subst hg
      dsimp only
      have hne : procChunks f ≠ [] := by
        intro hnil
        rw [hnil] at hr
        simp at hr
        exact hz.1 hr
      obtain ⟨l0, ls', hpc⟩ := List.exists_cons_of_ne_nil hne
      rw [hpc] at hr hc hm huni
      have hl0 : l0 ∈ procChunks f := by rw [hpc]; exact List.mem_cons_self _ _
      have hl0len : 1 ≤ l0.length := by
        have := mem_procChunks_ne_nil hl0
        cases l0 with
        | nil => exact absurd rfl this
        | cons a t => simp
      have hcolv : g1.cols = l0.length := by
        rw [hc, if_neg (by simp), List.headD_cons]
      refine ⟨by omega, ?_, by omega, ?_, ?_, ?_, ?_, ?_, ?_⟩
      · rw [hr]; exact min_le_left _ _
      · rw [hcolv]; exact mem_procChunks_len_le hl0
      · rw [hpc, List.length_take, hr]
      · intro i hi
        rw [hpc]
        rw [hr] at hi
        rw [hm i, if_pos hi]
        exact (getD_take _ _ _ _ hi).symm
      · intro i hi
        rw [hr] at hi
        rw [hm i, if_pos hi]
        have hiR : i < ((l0 :: ls').take MAXR).length := by
          rw [List.length_take]; exact hi
        rw [← getD_take _ MAXR _ _ hi, List.getD_eq_getElem _ _ hiR]
        have hmem : ((l0 :: ls').take MAXR)[i] ∈ (l0 :: ls').take MAXR :=
          List.getElem_mem _
        rw [huni _ hmem, List.headD_cons, hcolv]
      · exact ⟨pS, hSL, rfl, rfl⟩
      · exact ⟨pE, hEL, rfl, rfl⟩

/-- Start and exit validity facts available after any successful load. -/
theorem load_maze_valid (f : List Char) (g0 g : G)
    (h : load_maze (some f) g0 = (g, true)) :
    0 ≤ g.sr ∧ g.sr < (g.rows : Int) ∧ 0 ≤ g.sc ∧ g.sc < (g.cols : Int) ∧
    0 ≤ g.er ∧ g.er < (g.rows : Int) ∧ 0 ≤ g.ec ∧ g.ec < (g.cols : Int) ∧
    cellAt g g.sr g.sc = 'S' ∧ cellAt g g.er g.ec = 'E' ∧
    is_valid g g.sr g.sc = true ∧ is_valid g g.er g.ec = true ∧
    (g.sr, g.sc) ≠ (g.er, g.ec) := by
  obtain ⟨-, -, -, -, -, -, -, ⟨pS, hSL, hsr, hsc⟩, ⟨pE, hEL, her, hec⟩⟩ :=
    load_maze_state f g0 g h
  have hSmem : pS ∈ markerCells g 'S' := mem_of_getLast?_eq_some hSL
  have hEmem : pE ∈ markerCells g 'E' := mem_of_getLast?_eq_some hEL
  unfold markerCells at hSmem hEmem
  have hSc := List.of_mem_filter hSmem
  have hEc := List.of_mem_filter hEmem
  simp only [decide_eq_true_eq] at hSc hEc
  have hSb := mem_cellsRC.mp (List.mem_of_mem_filter hSmem)
  have hEb := mem_cellsRC.mp (List.mem_of_mem_filter hEmem)
  have hcS : cellAt g g.sr g.sc = 'S' := by
    rw [hsr, hsc]
    unfold cellAt
    simpa using hSc
  have hcE : cellAt g g.er g.ec = 'E' := by
    rw [her, hec]
    unfold cellAt
    simpa using hEc
  have hb1 : 0 ≤ g.sr := by rw [hsr]; omega
  have hb2 : g.sr < (g.rows : Int) := by rw [hsr]; exact_mod_cast hSb.1
  have hb3 : 0 ≤ g.sc := by rw [hsc]; omega
  have hb4 : g.sc < (g.cols : Int) := by rw [hsc]; exact_mod_cast hSb.2
  have hb5 : 0 ≤ g.er := by rw [her]; omega
  have hb6 : g.er < (g.rows : Int) := by rw [her]; exact_mod_cast hEb.1
  have hb7 : 0 ≤ g.ec := by rw [hec]; omega
  have hb8 : g.ec < (g.cols : Int) := by rw [hec]; exact_mod_cast hEb.2
  refine ⟨hb1, hb2, hb3, hb4, hb5, hb6, hb7, hb8, hcS, hcE, ?_, ?_, ?_⟩
  · unfold is_valid
    rw [if_neg (by push_neg; exact ⟨hb1, hb2, hb3, hb4⟩), if_neg (by rw [hcS]; decide)]
  · unfold is_valid
    rw [if_neg (by push_neg; exact ⟨hb5, hb6, hb7, hb8⟩), if_neg (by rw [hcE]; decide)]
  · intro hcontra
    have h1 : g.sr = g.er := congrArg Prod.fst hcontra
    have h2 : g.sc = g.ec := congrArg Prod.snd hcontra
    rw [h1, h2, hcE] at hcS
    exact absurd hcS (by decide)

/-! ## Claim-level statements about the loader and `main` -/

/-- The program's globals before any load: nothing written yet. -/
def gEmpty : G := ⟨fun _ => [], 0, 0, 0, 0, 0, 0⟩

/-- The non-empty newline-separated lines of a source text. -/
def nonEmptyLines (s : List Char) : List (List Char) :=
  (linesOf s).filter (fun l => !l.isEmpty)

/-- The success condition of claim C6 exactly as worded, reading "line"
as a newline-separated line of the source: the source opens, it has at
least one non-empty line, every retained (first `MAXR`) non-empty line
has the length of the first one, and the retained lines contain both
markers. -/
def claimC6rhs (file : Option (List Char)) : Bool :=
  match file with
  | none => false
  | some s =>
    let R := (nonEmptyLines s).take MAXR
    !R.isEmpty &&
      R.all (fun l => l.length = (R.headD []).length) &&
      R.any (fun r => 'S' ∈ r) &&
      R.any (fun r => 'E' ∈ r)

/-- A single source line of 105 characters holding both markers: one
character longer than the read buffer accommodates, so `fgets` splits it
into a 104-character chunk and a 1-character chunk. -/
def ceFile6 : List Char := 'S' :: (List.replicate 103 '.' ++ ['E'])

/-- C6 counterexample: the claim's conditions hold for `ceFile6` (one
non-empty line, trivially uniform, containing `'S'` and `'E'`), yet
`load_maze` fails on it, because the 105-character line is read as two
chunks of different lengths. -/
theorem c6_counterexample :
    claimC6rhs (some ceFile6) = true ∧ (load_maze (some ceFile6) gEmpty).2 = false := by
  constructor
  · decide
  · decide

/-- C6 (amended): `load_maze` succeeds iff the source can be opened and,
reading the source in `fgets` units of at most 104 characters (so that
longer source lines are split), at least one non-empty chunk is
retained, every retained non-empty chunk (after stripping a trailing
newline, skipping empty chunks, keeping only the first 105) has the same
length as the first one, and the retained grid contains at least one
`'S'` and at least one `'E'`; in every other case it reports failure. -/
theorem load_maze_success_iff (file : Option (List Char)) (g : G) :
    (load_maze file g).2 = true ↔
      ∃ f, file = some f ∧
        retainedRows f ≠ [] ∧
        (∀ l ∈ retainedRows f, l.length = ((retainedRows f).headD []).length) ∧
        (∃ r ∈ retainedRows f, 'S' ∈ r) ∧
        (∃ r ∈ retainedRows f, 'E' ∈ r) := by
  cases file with
  | none =>
    constructor
    · intro h; exact absurd h (by simp [load_maze])
    · intro ⟨f, hf, _⟩; exact absurd hf (by simp)
  | some f =>
    rw [load_maze_ok_iff]
    constructor
    · intro h
      exact ⟨f, rfl, h.1, h.2.1, h.2.2.1, h.2.2.2⟩
    · intro ⟨f', hf, h1, h2, h3, h4⟩
      cases Option.some.inj hf
      exact ⟨h1, h2, h3, h4⟩

/-- The 105-character marker line used to build the C7 counterexample. -/
def ceLine7 : List Char := 'S' :: (List.replicate 103 '.' ++ ['E'])

/-- A source of 107 non-empty lines, each of 105 characters. -/
def ceFile7 : List Char :=
  (List.replicate 106 (ceLine7 ++ ['\n'])).flatten ++ ceLine7

theorem linesOf_append_newline (l rest : List Char) (h : '\n' ∉ l) :
    linesOf (l ++ '\n' :: rest) = l :: linesOf rest := by
  induction l with
  | nil =>
    show linesOf ('\n' :: rest) = [] :: linesOf rest
    conv_lhs => rw [linesOf]
    rw [if_pos rfl]
  | cons c t ih =>
    rw [List.cons_append]
    show linesOf (c :: (t ++ '\n' :: rest)) = _
    conv_lhs => rw [linesOf]
    rw [if_neg (fun hc => h (by rw [hc]; exact List.mem_cons_self _ _))]
    rw [ih (fun hm => h (List.mem_cons_of_mem _ hm))]

theorem linesOf_no_newline (l : List Char) (h : '\n' ∉ l) : linesOf l = [l] := by
  induction l with
  | nil => rfl
  | cons c t ih =>
    conv_lhs => rw [linesOf]
    rw [if_neg (fun hc => h (by rw [hc]; exact List.mem_cons_self _ _))]
    rw [ih (fun hm => h (List.mem_cons_of_mem _ hm))]

theorem linesOf_join_replicate (line : List Char) (h : '\n' ∉ line) :
    ∀ (n : Nat) (tail : List Char),
      linesOf ((List.replicate n (line ++ ['\n'])).flatten ++ tail) =
        List.replicate n line ++ linesOf tail := by
  intro n
  induction n with
  | zero => intro tail; simp
  | succ n ih =>
    intro tail
    rw [List.replicate_succ, List.flatten_cons, List.append_assoc, List.append_assoc]
    rw [show (['\n'] : List Char) ++ ((List.replicate n (line ++ ['\n'])).flatten ++ tail) =
      '\n' :: ((List.replicate n (line ++ ['\n'])).flatten ++ tail) from rfl]
    rw [linesOf_append_newline line _ h, ih tail]
    rfl

theorem nonEmptyLines_ceFile7 :
    nonEmptyLines ceFile7 = List.replicate 107 ceLine7 := by
  unfold nonEmptyLines ceFile7
  rw [linesOf_join_replicate ceLine7 (by decide) 106 ceLine7,
    linesOf_no_newline ceLine7 (by decide)]
  rw [show List.replicate 106 ceLine7 ++ [ceLine7] = List.replicate 107 ceLine7 from
    (List.replicate_succ' 106 ceLine7).symm]
  apply List.filter_eq_self.mpr
  intro a ha
  rw [List.eq_of_mem_replicate ha]
  decide

/-- `load_maze` fails on `ceFile7`: the first two chunks it reads have
lengths 104 and 1, so the uniform-length check fails. -/
theorem load_ceFile7_false : (load_maze (some ceFile7) gEmpty).2 = false := by
  have h1 : fgets104 ceFile7 = some (ceFile7.take 104, ceFile7.drop 104) := rfl
  have h2 : fgets104 (ceFile7.drop 104) =
      some ((ceFile7.drop 104).take 2, (ceFile7.drop 104).drop 2) := rfl
  have e : retainedRows ceFile7 =
      (stripNl (ceFile7.take 104) :: stripNl ((ceFile7.drop 104).take 2) ::
        (((chunksOf ((ceFile7.drop 104).drop 2)).map stripNl).filter
          (fun l => !l.isEmpty))).take MAXR := by
    unfold retainedRows procChunks
    rw [chunksOf_some h1, chunksOf_some h2]
    simp only [List.map_cons, List.filter_cons]
    rw [if_pos (by decide), if_pos (by decide)]
  have hnot : ¬ ((load_maze (some ceFile7) gEmpty).2 = true) := by
    rw [load_maze_ok_iff]
    intro ⟨_, huni, _, _⟩
    have hmem : stripNl ((ceFile7.drop 104).take 2) ∈ retainedRows ceFile7 := by
      rw [e, show MAXR = (103 + 1) + 1 from rfl, List.take_succ_cons, List.take_succ_cons]
      exact List.mem_cons_of_mem _ (List.mem_cons_self _ _)
    have hhead : (retainedRows ceFile7).headD [] = stripNl (ceFile7.take 104) := by
      rw [e, show MAXR = (103 + 1) + 1 from rfl, List.take_succ_cons]
      rfl
    have := huni _ hmem
    rw [hhead] at this
    have hL1 : (stripNl ((ceFile7.drop 104).take 2)).length = 1 := by decide
    have hL2 : (stripNl (ceFile7.take 104)).length = 104 := by decide
    rw [hL1, hL2] at this
    exact absurd this (by decide)
  cases hb : (load_maze (some ceFile7) gEmpty).2 with
  | false => rfl
  | true => exact absurd hb hnot

/-- C7 counterexample: `ceFile7` has 107 (> 105) non-empty lines, its
first 105 non-empty lines are uniform in length and contain both
markers — so the claim asserts the loader retains them and succeeds —
but `load_maze` fails on it: the 105-character lines do not survive the
104-character read buffer intact. -/
theorem c7_counterexample :
    MAXR < (nonEmptyLines ceFile7).length ∧
    (∀ l ∈ (nonEmptyLines ceFile7).take MAXR,
      l.length = (((nonEmptyLines ceFile7).take MAXR).headD []).length) ∧
    (∃ r ∈ (nonEmptyLines ceFile7).take MAXR, 'S' ∈ r) ∧
    (∃ r ∈ (nonEmptyLines ceFile7).take MAXR, 'E' ∈ r) ∧
    (load_maze (some ceFile7) gEmpty).2 = false := by
  rw [nonEmptyLines_ceFile7]
  rw [show (List.replicate 107 ceLine7).take MAXR = List.replicate 105 ceLine7 by
    rw [List.take_replicate]; rfl]
  refine ⟨by rw [List.length_replicate]; decide, ?_, ?_, ?_, ?_⟩
  · intro l hl
    rw [List.eq_of_mem_replicate hl]
    decide
  · exact ⟨ceLine7, List.mem_replicate.mpr ⟨by decide, rfl⟩, by decide⟩
  · exact ⟨ceLine7, List.mem_replicate.mpr ⟨by decide, rfl⟩, by decide⟩
  · exact load_ceFile7_false

/-- C7 (amended): when the source yields more than `MAXR` candidate rows
(non-empty stripped `fgets` chunks; equal to the non-empty lines whenever
every line fits the 104-character read buffer), the loader silently
retains exactly the first `MAXR` of them, its success depends only on
those retained rows (no error is reported for the excess), and on
success the grid is exactly those `MAXR` rows. -/
theorem load_maze_truncates (f : List Char) (g : G)
    (hmany : MAXR < (procChunks f).length) :
    ((load_maze (some f) g).2 = true ↔
      ((∀ l ∈ (procChunks f).take MAXR,
          l.length = (((procChunks f).take MAXR).headD []).length) ∧
       (∃ r ∈ (procChunks f).take MAXR, 'S' ∈ r) ∧
       (∃ r ∈ (procChunks f).take MAXR, 'E' ∈ r))) ∧
    ((load_maze (some f) g).2 = true →
      (load_maze (some f) g).1.rows = MAXR ∧
      ∀ i < MAXR, (load_maze (some f) g).1.maze i = (procChunks f).getD i []) := by
  have hR : retainedRows f = (procChunks f).take MAXR := rfl
  have hne : retainedRows f ≠ [] := by
    rw [hR, ← List.length_pos, List.length_take]
    simp only [MAXR] at hmany ⊢
    omega
  constructor
  · rw [load_maze_ok_iff, hR]
    constructor
    · intro ⟨_, a, b, c⟩; exact ⟨a, b, c⟩
    · intro ⟨a, b, c⟩; exact ⟨hR ▸ hne, a, b, c⟩
  · intro hok
    have h : load_maze (some f) g = ((load_maze (some f) g).1, true) :=
      Prod.ext rfl hok
    obtain ⟨-, -, -, -, hrows, hmaze, -, -, -⟩ :=
      load_maze_state f g (load_maze (some f) g).1 h
    have hlen : (retainedRows f).length = MAXR := by
      rw [hR, List.length_take]
      omega
    refine ⟨by rw [hrows, hlen], fun i hi => ?_⟩
    have hi2 : i < (load_maze (some f) g).1.rows := by rw [hrows, hlen]; exact hi
    rw [hmaze i hi2, hR, getD_take]
    omega

/-- A 212-character source yielding 106 one-character candidate rows. -/
def witFile7 : List Char := (List.replicate 106 ['.', '\n']).flatten

/-- Witness for `load_maze_truncates` at `witFile7`, which has 106
candidate rows. -/
theorem load_maze_truncates_witness :
    MAXR < (procChunks witFile7).length ∧
    (((load_maze (some witFile7) gEmpty).2 = true ↔
      ((∀ l ∈ (procChunks witFile7).take MAXR,
          l.length = (((procChunks witFile7).take MAXR).headD []).length) ∧
       (∃ r ∈ (procChunks witFile7).take MAXR, 'S' ∈ r) ∧
       (∃ r ∈ (procChunks witFile7).take MAXR, 'E' ∈ r))) ∧
    ((load_maze (some witFile7) gEmpty).2 = true →
      (load_maze (some witFile7) gEmpty).1.rows = MAXR ∧
      ∀ i < MAXR, (load_maze (some witFile7) gEmpty).1.maze i =
        (procChunks witFile7).getD i [])) :=
  ⟨by decide, load_maze_truncates witFile7 gEmpty (by decide)⟩

/-- C8: after a successful load, the retained start coordinates are the
last-seen `'S'` of the row-major scan of the retained grid, and the
retained exit coordinates the last-seen `'E'` (`markerCells` lists the
marker occurrences in row-major order). -/
theorem load_maze_last_marker (f : List Char) (g0 g : G)
    (h : load_maze (some f) g0 = (g, true)) :
    (∃ pS : Nat × Nat, (markerCells g 'S').getLast? = some pS ∧
       g.sr = (pS.1 : Int) ∧ g.sc = (pS.2 : Int)) ∧
    (∃ pE : Nat × Nat, (markerCells g 'E').getLast? = some pE ∧
       g.er = (pE.1 : Int) ∧ g.ec = (pE.2 : Int)) := by
  obtain ⟨-, -, -, -, -, -, -, hS, hE⟩ := load_maze_state f g0 g h
  exact ⟨hS, hE⟩

/-- A grid with two `'S'` and two `'E'` markers. -/
def wf8 : List Char := ['S', 'S', '\n', 'E', 'E', '\n']

/-- Witness for `load_maze_last_marker`: the duplicate-marker grid `wf8`
loads successfully and retains the last-seen markers, `(0,1)` and
`(1,1)`. -/
theorem load_maze_last_marker_witness :
    load_maze (some wf8) gEmpty = ((load_maze (some wf8) gEmpty).1, true) ∧
    ((∃ pS : Nat × Nat,
        (markerCells (load_maze (some wf8) gEmpty).1 'S').getLast? = some pS ∧
        (load_maze (some wf8) gEmpty).1.sr = (pS.1 : Int) ∧
        (load_maze (some wf8) gEmpty).1.sc = (pS.2 : Int)) ∧
     (∃ pE : Nat × Nat,
        (markerCells (load_maze (some wf8) gEmpty).1 'E').getLast? = some pE ∧
        (load_maze (some wf8) gEmpty).1.er = (pE.1 : Int) ∧
        (load_maze (some wf8) gEmpty).1.ec = (pE.2 : Int))) ∧
    (load_maze (some wf8) gEmpty).1.sr = 0 ∧
    (load_maze (some wf8) gEmpty).1.sc = 1 ∧
    (load_maze (some wf8) gEmpty).1.er = 1 ∧
    (load_maze (some wf8) gEmpty).1.ec = 1 := by
  have h : load_maze (some wf8) gEmpty = ((load_maze (some wf8) gEmpty).1, true) :=
    Prod.ext rfl (by decide)
  exact ⟨h, load_maze_last_marker wf8 gEmpty _ h, by decide, by decide, by decide, by decide⟩

/-! ## `main`: the initial load and the post-mode reload -/

/-- The initial load in `main`: on failure the program prints an error
and terminates with exit status 1 (modelled as `none`); on success the
menu loop starts with the loaded globals. -/
def main_init (file : Option (List Char)) (g : G) : Option G :=
  let r := load_maze file g
  if r.2 then some r.1 else none

/-- The end-of-mode epilogue of `main`'s loop: read the `again` answer;
anything other than `1` exits the program (`none`); otherwise
`load_maze();` is called with its result discarded, and the menu loop
continues (`some`) with whatever globals that reload left behind. -/
def main_after_mode (again : Int) (file : Option (List Char)) (g : G) : Option G :=
  if again ≠ 1 then none
  else some (load_maze file g).1

/-- A loadable grid and a bad replacement for it (no exit marker). -/
def c3FileOk : List Char := ['S', 'E']

def c3FileBad : List Char := ['S', '.']

/-- C3 is violated by the reload path: `main` checks the initial load
(first conjunct: a bad initial file terminates the program), but the
post-mode reload at the bottom of the menu loop discards the result of
`load_maze`; when the file has lost its `'E'` between loads, the reload
fails, yet `main` continues into the menu (`some ...`) carrying globals
whose exit coordinates are the `-1` sentinels — a corrupted grid left
exposed as usable. -/
theorem reload_failure_keeps_partial_grid :
    main_init (some c3FileBad) gEmpty = none ∧
    (∃ gMid, main_init (some c3FileOk) gEmpty = some gMid ∧
      (load_maze (some c3FileBad) gMid).2 = false ∧
      main_after_mode 1 (some c3FileBad) gMid =
        some (load_maze (some c3FileBad) gMid).1 ∧
      (load_maze (some c3FileBad) gMid).1.er = -1 ∧
      (load_maze (some c3FileBad) gMid).1.rows = 1) := by
  refine ⟨?_, (load_maze (some c3FileOk) gEmpty).1, ?_, by decide, ?_, by decide, by decide⟩
  · show (if (load_maze (some c3FileBad) gEmpty).2 = true
        then some (load_maze (some c3FileBad) gEmpty).1 else none) = none
    rw [if_neg (by decide)]
  · show (if (load_maze (some c3FileOk) gEmpty).2 = true
        then some (load_maze (some c3FileOk) gEmpty).1 else none) = some _
    rw [if_pos (by decide)]
  · show (if (1 : Int) ≠ 1 then none
        else some (load_maze (some c3FileBad) (load_maze (some c3FileOk) gEmpty).1).1) = some _
    rw [if_neg (by simp)]

/-! ## The randomized DFS path enumerator -/

/-- Two cells are adjacent when one of the four cardinal moves of
`dr`/`dc` leads from the first to the second. -/
def adjacent (u v : Cell) : Prop :=
  ∃ d ∈ ([0, 1, 2, 3] : List Nat), v = nbr u d

/-- The DFS state: the current path (`current_path_r`/`current_path_c`
up to `path_len`), the visited matrix (as the set of marked cells), and
the index of the next `rand()` value to be consumed. -/
structure DfsSt where
  path : List Cell
  visited : Finset Cell
  rk : Nat
deriving DecidableEq

/-- The in-place swap of `dirs[i]` and `dirs[j]` (`temp` semantics of the
source: the new `dirs[i]` is the old `dirs[j]` and vice versa). -/
def lswap (l : List Nat) (i j : Nat) : List Nat :=
  (l.set i (l.getD j 0)).set j (l.getD i 0)

/-- The Fisher-Yates shuffle of `{0, 1, 2, 3}` the DFS performs before
its neighbour loop (`for i = 3; i > 0; i--  j = rand() % (i + 1)`),
consuming the three `rand()` values `rnd k`, `rnd (k+1)`, `rnd (k+2)`. -/
def shuffle4 (rnd : Nat → Nat) (k : Nat) : List Nat :=
  let l1 := lswap [0, 1, 2, 3] 3 (rnd k % 4)
  let l2 := lswap l1 2 (rnd (k + 1) % 3)
  lswap l2 1 (rnd (k + 2) % 2)

/-- The neighbour loop of `dfs_find_one_path` over the shuffled direction
list: try each direction in order; recurse (through `dfsF`, the DFS at
one fuel level lower) into valid unvisited neighbours; propagate the
first success; report failure after the last direction. -/
def tryDirs (g : G) (dfsF : Cell → DfsSt → Option (Bool × DfsSt)) (rc : Cell) :
    List Nat → DfsSt → Option (Bool × DfsSt)
  | [], st => some (false, st)
  | d :: rest, st =>
    let n := nbr rc d
    if is_valid g n.1 n.2 = true ∧ n ∉ st.visited then
      match dfsF n st with
      | none => none
      | some (true, st1) => some (true, st1)
      | some (false, st1) => tryDirs g dfsF rc rest st1
    else tryDirs g dfsF rc rest st

/-- `dfs_find_one_path` from the source, with a structural fuel bounding
the recursion depth (`none` = fuel exhausted; the top level supplies more
fuel than there are cells, so this never happens): append the cell to the
current path; succeed immediately on the exit; otherwise mark the cell
visited, shuffle the four directions, try them in order, and on overall
failure unmark the cell and drop it from the path (backtrack). -/
def dfsAux (g : G) (rnd : Nat → Nat) : Nat → Cell → DfsSt → Option (Bool × DfsSt)
  | 0, _, _ => none
  | fuel + 1, rc, st =>
    let st1 : DfsSt := { st with path := st.path ++ [rc] }
    if rc.1 = g.er ∧ rc.2 = g.ec then some (true, st1)
    else
      let st2 : DfsSt := { st1 with visited := insert rc st1.visited }
      let dirs := shuffle4 rnd st2.rk
      let st3 : DfsSt := { st2 with rk := st2.rk + 3 }
      match tryDirs g (fun n st => dfsAux g rnd fuel n st) rc dirs st3 with
      | none => none
      | some (true, st4) => some (true, st4)
      | some (false, st4) =>
        some (false, { st4 with visited := st4.visited.erase rc,
                                path := st4.path.dropLast })

/-- A top-level invocation of the enumerator, as `show_some_solutions`
performs it: fresh all-zero visited matrix, `path_len = 0`, starting at
the start cell. -/
def dfs_find_one_path (g : G) (rnd : Nat → Nat) : Option (Bool × DfsSt) :=
  dfsAux g rnd (QSIZE + 1) (g.sr, g.sc) ⟨[], ∅, 0⟩

theorem lswap_mem {l : List Nat} {m : List Nat}
    (hl : ∀ y ∈ l, y ∈ m) (h0 : 0 ∈ m) (i j : Nat) :
    ∀ x ∈ lswap l i j, x ∈ m := by
  intro x hx
  unfold lswap at hx
  have getDmem : ∀ (k : Nat), l.getD k 0 ∈ m := by
    intro k
    by_cases hk : k < l.length
    · rw [List.getD_eq_getElem _ _ hk]
      exact hl _ (List.getElem_mem _)
    · rw [List.getD_eq_default _ _ (by omega)]
      exact h0
  rcases List.mem_or_eq_of_mem_set hx with hx1 | rfl
  · rcases List.mem_or_eq_of_mem_set hx1 with hx2 | rfl
    · exact hl _ hx2
    · exact getDmem j
  · exact getDmem i

theorem shuffle4_mem (rnd : Nat → Nat) (k : Nat) :
    ∀ x ∈ shuffle4 rnd k, x ∈ ([0, 1, 2, 3] : List Nat) := by
  unfold shuffle4
  exact lswap_mem (lswap_mem (lswap_mem (fun y hy => hy) (by decide) _ _)
    (by decide) _ _) (by decide) _ _

theorem tryDirs_restore (g : G) (dfsF : Cell → DfsSt → Option (Bool × DfsSt))
    (hF : ∀ n st st', n ∉ st.visited → dfsF n st = some (false, st') →
      st'.path = st.path ∧ st'.visited = st.visited)
    (rc : Cell) :
    ∀ (ds : List Nat) (st st' : DfsSt),
      tryDirs g dfsF rc ds st = some (false, st') →
      st'.path = st.path ∧ st'.visited = st.visited := by
  intro ds
  induction ds with
  | nil =>
    intro st st' h
    simp only [tryDirs, Option.some.injEq, Prod.mk.injEq, true_and] at h
    rw [← h]
    exact ⟨rfl, rfl⟩
  | cons d rest ih =>
    intro st st' h
    rw [tryDirs] at h
    split_ifs at h with hg
    · cases hd : dfsF (nbr rc d) st with
      | none => rw [hd] at h; exact absurd h (by simp)
      | some p =>
        obtain ⟨b, st1⟩ := p
        rw [hd] at h
        cases b with
        | true => exact absurd h (by simp)
        | false =>
          obtain ⟨hp, hv⟩ := hF _ _ _ hg.2 hd
          obtain ⟨hp2, hv2⟩ := ih st1 st' h
          exact ⟨hp2.trans hp, hv2.trans hv⟩
    · exact ih st st' h

/-- Backtrack restoration: whenever a DFS call fails, the visited matrix
and the current path are exactly as they were before the call (the
`rand()` counter, of course, has advanced). -/
theorem dfs_restore (g : G) (rnd : Nat → Nat) :
    ∀ (fuel : Nat) (rc : Cell) (st st' : DfsSt),
      rc ∉ st.visited →
      dfsAux g rnd fuel rc st = some (false, st') →
      st'.path = st.path ∧ st'.visited = st.visited := by
  intro fuel
  induction fuel with
  | zero => intro rc st st' _ h; exact absurd h (by simp [dfsAux])
  | succ fuel ih =>
    intro rc st st' hrc h
    rw [dfsAux] at h
    dsimp only at h
    split_ifs at h with hexit
    · exact absurd h (by simp)
    · cases ht : tryDirs g (fun n st => dfsAux g rnd fuel n st) rc
          (shuffle4 rnd st.rk) ⟨st.path ++ [rc], insert rc st.visited, st.rk + 3⟩ with
      | none => rw [ht] at h; exact absurd h (by simp)
      | some p =>
        obtain ⟨b, st4⟩ := p
        rw [ht] at h
        cases b with
        | true => exact absurd h (by simp)
        | false =>
          simp only [Option.some.injEq, Prod.mk.injEq, true_and] at h
          obtain ⟨hp, hv⟩ := tryDirs_restore g _ (fun n stx stx' hn hc => ih n stx stx' hn hc)
            rc _ _ _ ht
          rw [← h]
          dsimp only
          constructor
          · rw [hp]
            dsimp only
            exact List.dropLast_concat
          · rw [hv]
            dsimp only
            exact Finset.erase_insert hrc

/-- What a successful DFS call from `rc` guarantees about the resulting
state, relative to the entry path `p0` and the entry visited set `V0`:
the path grew by a suffix `q` that is a valid, 4-connected, repeat-free
route from `rc` to the exit, whose cells (other than the exit) were
unvisited at entry and are exactly the newly marked cells. -/
def SuccessPost (g : G) (rc : Cell) (p0 : List Cell) (V0 : Finset Cell)
    (st' : DfsSt) : Prop :=
  ∃ q : List Cell,
    st'.path = p0 ++ q ∧
    q.head? = some rc ∧
    q.getLast? = some (g.er, g.ec) ∧
    (∀ x ∈ q, is_valid g x.1 x.2 = true) ∧
    q.Chain' adjacent ∧
    q.Nodup ∧
    (∀ x ∈ q.dropLast, x ∉ V0 ∧ x ≠ (g.er, g.ec)) ∧
    st'.visited = V0 ∪ q.dropLast.toFinset

theorem mem_dropLast_or_getLast {α : Type} :
    ∀ {l : List α} {x : α}, x ∈ l → x ∈ l.dropLast ∨ l.getLast? = some x := by
  intro l
  induction l with
  | nil => intro x hx; exact absurd hx (by simp)
  | cons a t ih =>
    intro x hx
    cases t with
    | nil =>
      right
      rw [List.mem_singleton.mp hx]
      rfl
    | cons b t2 =>
      rcases List.mem_cons.mp hx with rfl | hx2
      · left
        exact List.mem_cons_self _ _
      · rcases ih hx2 with h1 | h2
        · left
          exact List.mem_cons_of_mem _ h1
        · right
          rw [List.getLast?_cons_cons]
          exact h2

theorem tryDirs_success (g : G) (dfsF : Cell → DfsSt → Option (Bool × DfsSt))
    (hres : ∀ n st st', n ∉ st.visited → dfsF n st = some (false, st') →
      st'.path = st.path ∧ st'.visited = st.visited)
    (hsucc : ∀ n st st', is_valid g n.1 n.2 = true → n ∉ st.visited →
      dfsF n st = some (true, st') → SuccessPost g n st.path st.visited st')
    (rc : Cell) :
    ∀ (ds : List Nat) (st st' : DfsSt),
      tryDirs g dfsF rc ds st = some (true, st') →
      ∃ d ∈ ds, is_valid g (nbr rc d).1 (nbr rc d).2 = true ∧
        (nbr rc d) ∉ st.visited ∧
        SuccessPost g (nbr rc d) st.path st.visited st' := by
  intro ds
  induction ds with
  | nil => intro st st' h; exact absurd h (by simp [tryDirs])
  | cons d rest ih =>
    intro st st' h
    rw [tryDirs] at h
    split_ifs at h with hg
    · cases hd : dfsF (nbr rc d) st with
      | none => rw [hd] at h; exact absurd h (by simp)
      | some p =>
        obtain ⟨b, st1⟩ := p
        rw [hd] at h
        cases b with
        | true =>
          simp only [Option.some.injEq, Prod.mk.injEq, true_and] at h
          exact ⟨d, List.mem_cons_self _ _, hg.1, hg.2,
            h ▸ hsucc _ _ _ hg.1 hg.2 hd⟩
        | false =>
          obtain ⟨hp, hv⟩ := hres _ _ _ hg.2 hd
          obtain ⟨d', hd', hva, hnv, hpost⟩ := ih st1 st' h
          rw [hp, hv] at hpost
          rw [hv] at hnv
          exact ⟨d', List.mem_cons_of_mem _ hd', hva, hnv, hpost⟩
    · obtain ⟨d', hd', hva, hnv, hpost⟩ := ih st st' h
      exact ⟨d', List.mem_cons_of_mem _ hd', hva, hnv, hpost⟩

/-- Success postcondition of the DFS: a successful call from a valid
unvisited cell extends the path by a valid, 4-connected, repeat-free
route from that cell to the exit. -/
theorem dfs_success (g : G) (rnd : Nat → Nat) :
    ∀ (fuel : Nat) (rc : Cell) (st st' : DfsSt),
      is_valid g rc.1 rc.2 = true → rc ∉ st.visited →
      dfsAux g rnd fuel rc st = some (true, st') →
      SuccessPost g rc st.path st.visited st' := by
  intro fuel
  induction fuel with
  | zero => intro rc st st' _ _ h; exact absurd h (by simp [dfsAux])
  | succ fuel ih =>
    intro rc st st' hval hrc h
    rw [dfsAux] at h
    dsimp only at h
    split_ifs at h with hexit
    · simp only [Option.some.injEq, Prod.mk.injEq, true_and] at h
      obtain rfl := h.symm
      refine ⟨[rc], rfl, rfl, ?_, ?_, ?_, ?_, ?_, ?_⟩
      · rw [show rc = (g.er, g.ec) from Prod.ext hexit.1 hexit.2]
        rfl
      · intro x hx
        rw [List.mem_singleton.mp hx]
        exact hval
      · exact List.chain'_singleton _
      · exact List.nodup_singleton _
      · intro x hx
        exact absurd hx (by simp)
      · simp
    · cases ht : tryDirs g (fun n st => dfsAux g rnd fuel n st) rc
          (shuffle4 rnd st.rk) ⟨st.path ++ [rc], insert rc st.visited, st.rk + 3⟩ with
      | none => rw [ht] at h; exact absurd h (by simp)
      | some p =>
        obtain ⟨b, st4⟩ := p
        rw [ht] at h
        cases b with
        | false => exact absurd h (by simp)
        | true =>
          simp only [Option.some.injEq, Prod.mk.injEq, true_and] at h
          obtain rfl := h
          obtain ⟨d, hd, hva, hnv, hpost⟩ := tryDirs_success g _
            (fun n stx stx' hn hc => dfs_restore g rnd fuel n stx stx' hn hc)
            (fun n stx stx' hv hn hc => ih n stx stx' hv hn hc)
            rc _ _ _ ht
          obtain ⟨q', hpath, hhead, hlast, hvalq, hchain, hnodup, hfresh, hvis⟩ := hpost
          dsimp only at hpath hhead hlast hvalq hchain hnodup hfresh hvis hnv
          have hq'ne : q' ≠ [] := by
            intro hq
            rw [hq] at hhead
            exact absurd hhead (by simp)
          obtain ⟨y, q'', rfl⟩ := List.exists_cons_of_ne_nil hq'ne
          have hrcne : rc ≠ (g.er, g.ec) := by
            intro hcontra
            exact hexit ⟨congrArg Prod.fst hcontra, congrArg Prod.snd hcontra⟩
          refine ⟨rc :: y :: q'', ?_, rfl, ?_, ?_, ?_, ?_, ?_, ?_⟩
          · rw [hpath, List.append_assoc]
            rfl
          · rw [List.getLast?_cons_cons]
            exact hlast
          · intro x hx
            rcases List.mem_cons.mp hx with rfl | hx2
            · exact hval
            · exact hvalq x hx2
          · rw [List.chain'_cons']
            refine ⟨?_, hchain⟩
            intro z hz
            simp only [List.head?_cons, Option.mem_def, Option.some.injEq] at hz
            rw [← hz]
            have hyd : y = nbr rc d := by
              have := hhead
              simp only [List.head?_cons, Option.some.injEq] at this
              exact this
            rw [hyd]
            exact ⟨d, shuffle4_mem rnd st.rk d hd, rfl⟩
          · rw [List.nodup_cons]
            refine ⟨?_, hnodup⟩
            intro hmem
            rcases mem_dropLast_or_getLast hmem with h1 | h2
            · exact (hfresh rc h1).1 (Finset.mem_insert_self _ _)
            · rw [hlast] at h2
              exact hrcne (Option.some.inj h2).symm
          · intro x hx
            rw [show (rc :: y :: q'').dropLast = rc :: (y :: q'').dropLast from rfl] at hx
            rcases List.mem_cons.mp hx with rfl | hx2
            · exact ⟨hrc, hrcne⟩
            · obtain ⟨hx3, hx4⟩ := hfresh x hx2
              exact ⟨fun hmem => hx3 (Finset.mem_insert_of_mem hmem), hx4⟩
          · rw [hvis]
            rw [show (rc :: y :: q'').dropLast = rc :: (y :: q'').dropLast from rfl]
            rw [List.toFinset_cons, Finset.union_insert, Finset.insert_union]

/-- C4.  Every path returned by a successful top-level call of
`dfs_find_one_path` on a successfully loaded grid starts at the start
cell, ends at the exit cell, contains only in-bounds non-wall cells,
moves by exactly one cardinal step between consecutive cells, and never
repeats a position. -/
theorem dfs_path_props (f : List Char) (g0 g : G) (rnd : Nat → Nat) (st' : DfsSt)
    (hload : load_maze (some f) g0 = (g, true))
    (hrun : dfs_find_one_path g rnd = some (true, st')) :
    st'.path.head? = some (g.sr, g.sc) ∧
    st'.path.getLast? = some (g.er, g.ec) ∧
    (∀ x ∈ st'.path, is_valid g x.1 x.2 = true) ∧
    st'.path.Chain' adjacent ∧
    st'.path.Nodup := by
  obtain ⟨-, -, -, -, -, -, -, -, -, -, hvS, -, -⟩ := load_maze_valid f g0 g hload
  obtain ⟨q, hpath, hhead, hlast, hval, hchain, hnodup, -, -⟩ :=
    dfs_success g rnd (QSIZE + 1) (g.sr, g.sc) ⟨[], ∅, 0⟩ st' hvS (by simp) hrun
  rw [hpath]
  simp only [List.nil_append]
  exact ⟨hhead, hlast, hval, hchain, hnodup⟩

/-- Witness for `dfs_path_props`: on the loaded 1×2 grid `"SE"`, with the
zero random stream, the DFS finds the path `[(0,0), (0,1)]`. -/
theorem dfs_path_props_witness :
    (⟨[((0 : Int), (0 : Int)), ((0 : Int), (1 : Int))], {((0 : Int), (0 : Int))}, 3⟩ : DfsSt).path.head? =
      some ((load_maze (some ['S', 'E']) gEmpty).1.sr, (load_maze (some ['S', 'E']) gEmpty).1.sc) ∧
    (⟨[((0 : Int), (0 : Int)), ((0 : Int), (1 : Int))], {((0 : Int), (0 : Int))}, 3⟩ : DfsSt).path.getLast? =
      some ((load_maze (some ['S', 'E']) gEmpty).1.er, (load_maze (some ['S', 'E']) gEmpty).1.ec) ∧
    (∀ x ∈ (⟨[((0 : Int), (0 : Int)), ((0 : Int), (1 : Int))], {((0 : Int), (0 : Int))}, 3⟩ : DfsSt).path,
      is_valid (load_maze (some ['S', 'E']) gEmpty).1 x.1 x.2 = true) ∧
    (⟨[((0 : Int), (0 : Int)), ((0 : Int), (1 : Int))], {((0 : Int), (0 : Int))}, 3⟩ : DfsSt).path.Chain' adjacent ∧
    (⟨[((0 : Int), (0 : Int)), ((0 : Int), (1 : Int))], {((0 : Int), (0 : Int))}, 3⟩ : DfsSt).path.Nodup :=
  dfs_path_props ['S', 'E'] gEmpty (load_maze (some ['S', 'E']) gEmpty).1 (fun _ => 0)
    ⟨[((0 : Int), (0 : Int)), ((0 : Int), (1 : Int))], {((0 : Int), (0 : Int))}, 3⟩
    (Prod.ext rfl (by decide)) (by decide)

/-- C5.  Whenever a DFS call on an unmarked cell returns failure, the
visited matrix and the current path are exactly as they were immediately
before the call: the cell is unmarked and removed from the path on
backtrack.  (Every call site — the top level and the recursive calls,
which are guarded by `!visited[nr][nc]` — calls the function on unmarked
cells only.) -/
theorem dfs_backtrack_restores (g : G) (rnd : Nat → Nat) (fuel : Nat) (rc : Cell)
    (st st' : DfsSt) (hrc : rc ∉ st.visited)
    (h : dfsAux g rnd fuel rc st = some (false, st')) :
    st'.path = st.path ∧ st'.visited = st.visited :=
  dfs_restore g rnd fuel rc st st' hrc h

/-- A 1×3 grid whose start is walled off from its exit. -/
def gWitC5 : G := ⟨fun i => if i = 0 then ['S', '#', 'E'] else [], 1, 3, 0, 0, 0, 2⟩

/-- Witness for `dfs_backtrack_restores`: on `gWitC5` the DFS from the
start fails and leaves the path empty and the visited set empty, exactly
as before the call. -/
theorem dfs_backtrack_restores_witness :
    (((0 : Int), (0 : Int)) ∉ (⟨[], ∅, 0⟩ : DfsSt).visited) ∧
    dfsAux gWitC5 (fun _ => 0) (QSIZE + 1) (0, 0) ⟨[], ∅, 0⟩ =
      some (false, ⟨[], ∅, 3⟩) ∧
    ((⟨[], ∅, 3⟩ : DfsSt).path = (⟨[], ∅, 0⟩ : DfsSt).path ∧
     (⟨[], ∅, 3⟩ : DfsSt).visited = (⟨[], ∅, 0⟩ : DfsSt).visited) :=
  ⟨by decide, by decide,
   dfs_backtrack_restores gWitC5 (fun _ => 0) (QSIZE + 1) (0, 0) ⟨[], ∅, 0⟩ ⟨[], ∅, 3⟩
     (by decide) (by decide)⟩

/-! ## The BFS shortest-path engine -/

/-- BFS state: the queue contents in FIFO order, the visited matrix, the
parent maps `parent_r`/`parent_c` (as one map to the parent cell;
entries other than the start's and those the search assigns are never
read, and `(-1, -1)` stands for the uninitialized bytes as well as for
the start's sentinel), plus two ghost fields recording every cell ever
pushed, in order, and the largest number of pending entries the queue
ever held — used to relate this unbounded FIFO to the `QSIZE`-slot
circular queue of the source. -/
structure BfsSt where
  queue : List Cell
  visited : Finset Cell
  par : Cell → Cell
  pushed : List Cell
  maxPend : Nat

/-- `queue_push` on the FIFO, with the ghost trace updates. -/
def bqPush (rc : Cell) (st : BfsSt) : BfsSt :=
  { st with queue := st.queue ++ [rc],
            pushed := st.pushed ++ [rc],
            maxPend := max st.maxPend (st.queue.length + 1) }

/-- The inner `for (d = 0; d < 4; d++)` loop of `bfs_shortest` over the
direction indices still to be tried: skip invalid or visited neighbours;
otherwise mark the neighbour visited, record its parent, push it, and
stop the whole search (`found = 1; break`) the moment the neighbour is
the exit. -/
def scanDirs (g : G) (cr cc : Int) : List Nat → BfsSt → BfsSt × Bool
  | [], st => (st, false)
  | d :: rest, st =>
    let n := nbr (cr, cc) d
    if is_valid g n.1 n.2 = true ∧ n ∉ st.visited then
      let st1 : BfsSt := bqPush n
        { st with visited := insert n st.visited,
                  par := Function.update st.par n (cr, cc) }
      if n.1 = g.er ∧ n.2 = g.ec then (st1, true)
      else scanDirs g cr cc rest st1
    else scanDirs g cr cc rest st

/-- The `while (!queue_empty() && !found)` loop of `bfs_shortest`, with a
structural fuel (one unit per dequeue; `bfs_shortest` supplies provably
sufficient fuel, so the `none` fuel-exhaustion answer never occurs). -/
def bfsLoop (g : G) : Nat → BfsSt → Option (BfsSt × Bool)
  | 0, _ => none
  | fuel + 1, st =>
    match st.queue with
    | [] => some (st, false)
    | (cr, cc) :: q' =>
      let r := scanDirs g cr cc [0, 1, 2, 3] { st with queue := q' }
      if r.2 then some (r.1, true) else bfsLoop g fuel r.1

/-- The initialization of `bfs_shortest`: empty queue, push the start,
mark it visited, set its parent to the `(-1, -1)` sentinel. -/
def bfsInit (g : G) : BfsSt :=
  bqPush (g.sr, g.sc)
    { queue := [], visited := {(g.sr, g.sc)}, par := fun _ => (-1, -1),
      pushed := [], maxPend := 0 }

/-- The backward parent-link walk of `mark_shortest_path`
(`while (cr != sr || cc != sc) ... length++`), returning the number of
steps; fuelled (`none` = the walk failed to reach the start within the
fuel, which for the C code would be a non-terminating loop — proven
never to happen after a successful search). -/
def markLenAux (g : G) (par : Cell → Cell) : Nat → Cell → Option Nat
  | 0, c => if c = (g.sr, g.sc) then some 0 else none
  | fuel + 1, c =>
    if c = (g.sr, g.sc) then some 0
    else (markLenAux g par fuel (par c)).map (· + 1)

/-- The observable outcome of `bfs_shortest`: the "No path exists!"
report, or the printed shortest-path length in steps, or divergence of
the reconstruction walk (never reached; kept to avoid conflating it with
the other two). -/
inductive BfsOut where
  | noPath : BfsOut
  | pathLen : Nat → BfsOut
  | hang : BfsOut
deriving DecidableEq

/-- `bfs_shortest`, composed from the loop and the reconstruction walk of
`mark_shortest_path`.  (The `'b'` cell marking is display-only and not
modelled; the reported `length` is.) -/
def bfs_shortest (g : G) : BfsOut :=
  match bfsLoop g (QSIZE + 1) (bfsInit g) with
  | none => .hang
  | some (_, false) => .noPath
  | some (st, true) =>
    match markLenAux g st.par (QSIZE + 1) (g.er, g.ec) with
    | none => .hang
    | some n => .pathLen n

/-- The cell sequence the parent-link walk of `mark_shortest_path`
traverses, listed in start-to-exit order (the walk itself runs backward
from the exit). -/
def parWalk (g : G) (par : Cell → Cell) : Nat → Cell → List Cell
  | 0, c => [c]
  | fuel + 1, c =>
    if c = (g.sr, g.sc) then [c] else parWalk g par fuel (par c) ++ [c]

/-- The reconstructed shortest path, when the search found the exit. -/
def bfs_path (g : G) : List Cell :=
  match bfsLoop g (QSIZE + 1) (bfsInit g) with
  | some (st, true) => parWalk g st.par (QSIZE + 1) (g.er, g.ec)
  | _ => []

/-! ### Walks, graph distance, and parent chains -/

/-- `Wk g u v n`: there is a walk of `n` cardinal steps from `u` to `v`
through in-bounds non-wall cells. -/
inductive Wk (g : G) : Cell → Cell → Nat → Prop
  | nil (v : Cell) : is_valid g v.1 v.2 = true → Wk g v v 0
  | cons (u v w : Cell) (n : Nat) : is_valid g u.1 u.2 = true → adjacent u v →
      Wk g v w n → Wk g u w (n + 1)

/-- The exit is reachable from the start in the 4-connected passable
subgraph. -/
def Reachable (g : G) : Prop := ∃ n, Wk g (g.sr, g.sc) (g.er, g.ec) n

/-- `Dist g v n`: `n` is the true graph distance (least number of edges
of any walk) from the start to `v`. -/
def Dist (g : G) (v : Cell) (n : Nat) : Prop :=
  IsLeast {k | Wk g (g.sr, g.sc) v k} n

/-- `ParOk g par n v`: following the parent map from `v` reaches the
start in exactly `n` steps, each step moving to an adjacent cell, all
cells on the way valid. -/
def ParOk (g : G) (par : Cell → Cell) : Nat → Cell → Prop
  | 0, v => v = (g.sr, g.sc)
  | n + 1, v => v ≠ (g.sr, g.sc) ∧ is_valid g v.1 v.2 = true ∧
      adjacent (par v) v ∧ ParOk g par n (par v)

/-- The two-level structure of the BFS queue: a prefix of cells at
distance `k` followed by cells at distance `k + 1`. -/
def QLevels (g : G) (q : List Cell) (k : Nat) : Prop :=
  ∃ a b : List Cell, q = a ++ b ∧ (∀ v ∈ a, Dist g v k) ∧ (∀ v ∈ b, Dist g v (k + 1))

/-- The set of valid cells of a grid. -/
def validFinset (g : G) : Finset Cell :=
  (((Finset.range g.rows) ×ˢ (Finset.range g.cols)).image
    (fun p => ((p.1 : Int), (p.2 : Int)))).filter (fun p => is_valid g p.1 p.2)

/-- The termination measure of the BFS loop. -/
def bmeasure (g : G) (st : BfsSt) : Nat :=
  (validFinset g \ st.visited).card + st.queue.length

theorem is_valid_bounds {g : G} {r c : Int} (h : is_valid g r c = true) :
    0 ≤ r ∧ r < (g.rows : Int) ∧ 0 ≤ c ∧ c < (g.cols : Int) ∧ cellAt g r c ≠ '#' := by
  unfold is_valid at h
  split_ifs at h with h1 h2
  push_neg at h1
  exact ⟨h1.1, h1.2.1, h1.2.2.1, h1.2.2.2, h2⟩

theorem mem_validFinset {g : G} {v : Cell} :
    v ∈ validFinset g ↔ is_valid g v.1 v.2 = true := by
  unfold validFinset
  rw [Finset.mem_filter]
  constructor
  · intro ⟨_, h⟩; exact h
  · intro h
    obtain ⟨hr0, hr1, hc0, hc1, -⟩ := is_valid_bounds h
    refine ⟨Finset.mem_image.mpr ⟨(v.1.toNat, v.2.toNat), ?_, ?_⟩, h⟩
    · rw [Finset.mem_product]
      constructor <;> rw [Finset.mem_range] <;> omega
    · have e1 : ((v.1.toNat : Int), (v.2.toNat : Int)) = (v.1, v.2) := by
        rw [Int.toNat_of_nonneg hr0, Int.toNat_of_nonneg hc0]
      rw [e1]

theorem validFinset_card (g : G) : (validFinset g).card ≤ g.rows * g.cols := by
  unfold validFinset
  calc (((Finset.range g.rows ×ˢ Finset.range g.cols).image
          (fun p => ((p.1 : Int), (p.2 : Int)))).filter (fun p => is_valid g p.1 p.2)).card
      ≤ ((Finset.range g.rows ×ˢ Finset.range g.cols).image
          (fun p => ((p.1 : Int), (p.2 : Int)))).card := Finset.card_filter_le _ _
    _ ≤ (Finset.range g.rows ×ˢ Finset.range g.cols).card := Finset.card_image_le
    _ = g.rows * g.cols := by rw [Finset.card_product, Finset.card_range, Finset.card_range]

theorem Wk_valid_left {g : G} {u w : Cell} {n : Nat} (h : Wk g u w n) :
    is_valid g u.1 u.2 = true := by
  cases h with
  | nil _ hv => exact hv
  | cons _ _ _ _ hv _ _ => exact hv

theorem Wk_snoc {g : G} {u x : Cell} {n : Nat} (h : Wk g u x n) :
    ∀ v : Cell, adjacent x v → is_valid g v.1 v.2 = true → Wk g u v (n + 1) := by
  induction h with
  | nil y hy =>
    intro v hadj hv
    exact Wk.cons y v v 0 hy hadj (Wk.nil v hv)
  | cons a b w m ha hadj1 _ ih =>
    intro v hadj hv
    exact Wk.cons a b v (m + 1) ha hadj1 (ih v hadj hv)

theorem Dist_unique {g : G} {v : Cell} {n m : Nat}
    (h1 : Dist g v n) (h2 : Dist g v m) : n = m :=
  h1.unique h2

theorem ParOk_unique {g : G} {par : Cell → Cell} :
    ∀ {n m : Nat} {v : Cell}, ParOk g par n v → ParOk g par m v → n = m := by
  intro n
  induction n with
  | zero =>
    intro m v h1 h2
    cases m with
    | zero => rfl
    | succ m => exact absurd h1 h2.1
  | succ n ih =>
    intro m v h1 h2
    cases m with
    | zero => exact absurd h2 h1.1
    | succ m => rw [ih h1.2.2.2 h2.2.2.2]

theorem ParOk_update {g : G} {par : Cell → Cell} {V : Finset Cell}
    (hpv : ∀ w ∈ V, w ≠ (g.sr, g.sc) → par w ∈ V) {v : Cell} (hv : v ∉ V) (u : Cell) :
    ∀ {n : Nat} {w : Cell}, w ∈ V → ParOk g par n w →
      ParOk g (Function.update par v u) n w := by
  intro n
  induction n with
  | zero => intro w _ h; exact h
  | succ n ih =>
    intro w hw h
    obtain ⟨h1, h2, h3, h4⟩ := h
    have hwv : w ≠ v := fun hh => hv (hh ▸ hw)
    refine ⟨h1, h2, ?_, ?_⟩
    · rw [Function.update_noteq hwv]; exact h3
    · rw [Function.update_noteq hwv]
      exact ih (hpv w hw h1) h4

theorem ParOk_wk {g : G} {par : Cell → Cell}
    (hs : is_valid g g.sr g.sc = true) :
    ∀ {n : Nat} {v : Cell}, ParOk g par n v → Wk g (g.sr, g.sc) v n := by
  intro n
  induction n with
  | zero =>
    intro v h
    rw [h]
    exact Wk.nil _ hs
  | succ n ih =>
    intro v h
    obtain ⟨-, h2, h3, h4⟩ := h
    exact Wk_snoc (ih h4) v h3 h2

theorem QLevels_mem_ge {g : G} {q : List Cell} {k : Nat} (h : QLevels g q k) :
    ∀ v ∈ q, ∃ m, k ≤ m ∧ Dist g v m := by
  obtain ⟨a, b, rfl, ha, hb⟩ := h
  intro v hv
  rcases List.mem_append.mp hv with h1 | h1
  · exact ⟨k, le_refl _, ha v h1⟩
  · exact ⟨k + 1, by omega, hb v h1⟩

theorem QLevels_append {g : G} {q : List Cell} {k : Nat} (h : QLevels g q k)
    {v : Cell} (hv : Dist g v (k + 1)) : QLevels g (q ++ [v]) k := by
  obtain ⟨a, b, rfl, ha, hb⟩ := h
  refine ⟨a, b ++ [v], by rw [List.append_assoc], ha, ?_⟩
  intro w hw
  rcases List.mem_append.mp hw with h1 | h1
  · exact hb w h1
  · rw [List.mem_singleton.mp h1]
    exact hv

theorem qlevels_pop {g : G} {u : Cell} {q' : List Cell} {k : Nat}
    (h : QLevels g (u :: q') k) :
    ∃ ku, Dist g u ku ∧ QLevels g q' ku ∧
      (∀ v ∈ u :: q', ∃ m, ku ≤ m ∧ Dist g v m) ∧
      (∀ P : List Cell, (∀ v ∈ P, Dist g v (ku + 1)) → QLevels g (q' ++ P) ku) := by
  obtain ⟨a, b, heq, ha, hb⟩ := h
  cases a with
  | nil =>
    simp only [List.nil_append] at heq
    subst heq
    refine ⟨k + 1, hb u (List.mem_cons_self _ _), ?_, ?_, ?_⟩
    · exact ⟨q', [], by simp, fun v hv => hb v (List.mem_cons_of_mem _ hv), by simp⟩
    · intro v hv
      exact ⟨k + 1, le_refl _, hb v hv⟩
    · intro P hP
      exact ⟨q', P, rfl, fun v hv => hb v (List.mem_cons_of_mem _ hv), hP⟩
  | cons x a' =>
    rw [List.cons_append] at heq
    obtain ⟨rfl, heq2⟩ := List.cons.inj heq
    refine ⟨k, ha u (List.mem_cons_self _ _), ?_, ?_, ?_⟩
    · exact ⟨a', b, heq2, fun v hv => ha v (List.mem_cons_of_mem _ hv), hb⟩
    · intro v hv
      rcases List.mem_cons.mp hv with rfl | hv2
      · exact ⟨k, le_refl _, ha v (List.mem_cons_self _ _)⟩
      · rw [heq2] at hv2
        rcases List.mem_append.mp hv2 with h1 | h1
        · exact ⟨k, le_refl _, ha v (List.mem_cons_of_mem _ h1)⟩
        · exact ⟨k + 1, by omega, hb v h1⟩
    · intro P hP
      refine ⟨a', b ++ P, by rw [heq2, List.append_assoc], fun v hv => ha v (List.mem_cons_of_mem _ hv), ?_⟩
      intro w hw
      rcases List.mem_append.mp hw with h1 | h1
      · exact hb w h1
      · exact hP w h1

theorem sub_nodup_length_le {α : Type} [DecidableEq α] {q p : List α}
    (hq : q.Nodup) (hsub : ∀ x ∈ q, x ∈ p) : q.length ≤ p.length := by
  calc q.length = q.toFinset.card := (List.toFinset_card_of_nodup hq).symm
    _ ≤ p.toFinset.card := Finset.card_le_card (by
        intro x hx
        rw [List.mem_toFinset] at hx
        rw [List.mem_toFinset]
        exact hsub x hx)
    _ ≤ p.length := p.toFinset_card_le

theorem walk_lb {g : G} {V : Finset Cell} {Q : List Cell} {u : Cell}
    (hclos : ∀ x ∈ V, x ∉ Q → x ≠ u → ∀ y, adjacent x y →
      is_valid g y.1 y.2 = true → y ∈ V) :
    ∀ {a w : Cell} {n : Nat}, Wk g a w n → a ∈ V → w ∉ V →
      ∃ x, (x ∈ Q ∨ x = u) ∧ ∃ m, Wk g a x m ∧ m + 1 ≤ n := by
  intro a w n hwk
  induction hwk with
  | nil v _ => intro h1 h2; exact absurd h1 h2
  | cons a v w m hva hadj hwk2 ih =>
    intro h1 h2
    by_cases hv : v ∈ V
    · obtain ⟨x, hx, m2, hm, hmn⟩ := ih hv h2
      exact ⟨x, hx, m2 + 1, Wk.cons a v x m2 hva hadj hm, by omega⟩
    · have hvv : is_valid g v.1 v.2 = true := Wk_valid_left hwk2
      have : a ∈ Q ∨ a = u := by
        by_contra hcon
        push_neg at hcon
        exact hv (hclos a h1 hcon.1 hcon.2 v hadj hvv)
      exact ⟨a, this, 0, Wk.nil a hva, by omega⟩


/-! ### The BFS loop invariant -/

/-- What claim C10 needs of the final state: the ghost push trace has no
duplicate (each cell is enqueued at most once), only valid cells are ever
pushed, and the maximal number of simultaneously pending queue entries is
bounded by the number of pushes. -/
def GhostOk (g : G) (st : BfsSt) : Prop :=
  st.pushed.Nodup ∧ (∀ v ∈ st.pushed, is_valid g v.1 v.2 = true) ∧
    st.maxPend ≤ st.pushed.length

/-- The invariant holding in the middle of the direction scan of the
dequeued cell `u` (at distance `ku` from the start), with `ds` the
direction indices still to be tried. -/
structure MidInv (g : G) (u : Cell) (ku : Nat) (ds : List Nat) (st : BfsSt) : Prop where
  nodupQ : st.queue.Nodup
  qVis : ∀ v ∈ st.queue, v ∈ st.visited
  visValid : ∀ v ∈ st.visited, is_valid g v.1 v.2 = true
  startVis : (g.sr, g.sc) ∈ st.visited
  visDepth : ∀ v ∈ st.visited, ∃ n, Dist g v n ∧ ParOk g st.par n v
  parVis : ∀ v ∈ st.visited, v ≠ (g.sr, g.sc) → st.par v ∈ st.visited
  uVis : u ∈ st.visited
  uNotQ : u ∉ st.queue
  uDist : Dist g u ku
  closure : ∀ x ∈ st.visited, x ∉ st.queue → x ≠ u → ∀ y, adjacent x y →
      is_valid g y.1 y.2 = true → y ∈ st.visited
  uNbr : ∀ v : Cell, adjacent u v → is_valid g v.1 v.2 = true →
      (∃ d ∈ ds, v = nbr u d) ∨ v ∈ st.visited
  levels : QLevels g st.queue ku
  exitNot : (g.er, g.ec) ∉ st.visited
  pNodup : st.pushed.Nodup
  pVis : ∀ v ∈ st.pushed, v ∈ st.visited
  qPushed : ∀ v ∈ st.queue, v ∈ st.pushed
  mp : st.maxPend ≤ st.pushed.length

/-- The invariant holding between iterations of the BFS `while` loop. -/
structure BCore (g : G) (st : BfsSt) : Prop where
  nodupQ : st.queue.Nodup
  qVis : ∀ v ∈ st.queue, v ∈ st.visited
  visValid : ∀ v ∈ st.visited, is_valid g v.1 v.2 = true
  startVis : (g.sr, g.sc) ∈ st.visited
  visDepth : ∀ v ∈ st.visited, ∃ n, Dist g v n ∧ ParOk g st.par n v
  parVis : ∀ v ∈ st.visited, v ≠ (g.sr, g.sc) → st.par v ∈ st.visited
  closure : ∀ x ∈ st.visited, x ∉ st.queue → ∀ y, adjacent x y →
      is_valid g y.1 y.2 = true → y ∈ st.visited
  levels : ∃ k, QLevels g st.queue k
  exitNot : (g.er, g.ec) ∉ st.visited
  pNodup : st.pushed.Nodup
  pVis : ∀ v ∈ st.pushed, v ∈ st.visited
  qPushed : ∀ v ∈ st.queue, v ∈ st.pushed
  mp : st.maxPend ≤ st.pushed.length

/-- A visited set that is closed under taking valid neighbours contains
every cell reachable from any of its members. -/
theorem closure_reach {g : G} {V : Finset Cell}
    (hcl : ∀ x ∈ V, ∀ y, adjacent x y → is_valid g y.1 y.2 = true → y ∈ V) :
    ∀ {a w : Cell} {n : Nat}, Wk g a w n → a ∈ V → w ∈ V := by
  intro a w n hwk
  induction hwk with
  | nil v _ => exact id
  | cons a v w m _ hadj hwk2 ih =>
    intro ha
    exact ih (hcl a ha v hadj (Wk_valid_left hwk2))


/-- One full direction scan of a dequeued cell preserves the invariant:
the termination measure is unchanged, a scan that does not find the exit
re-establishes the invariant with no direction left, and a scan that
finds the exit yields a parent chain of length exactly the exit's graph
distance, plus the push-trace facts. -/
theorem scanDirs_spec (g : G) (u : Cell) (ku : Nat) :
    ∀ (ds : List Nat) (st : BfsSt), (∀ d ∈ ds, d < 4) → MidInv g u ku ds st →
      bmeasure g (scanDirs g u.1 u.2 ds st).1 = bmeasure g st ∧
      ((scanDirs g u.1 u.2 ds st).2 = false →
        MidInv g u ku [] (scanDirs g u.1 u.2 ds st).1) ∧
      ((scanDirs g u.1 u.2 ds st).2 = true →
        (∃ n, Dist g (g.er, g.ec) n ∧
          ParOk g (scanDirs g u.1 u.2 ds st).1.par n (g.er, g.ec)) ∧
        GhostOk g (scanDirs g u.1 u.2 ds st).1) := by
  obtain ⟨cr, cc⟩ := u
  intro ds
  induction ds with
  | nil =>
    intro st _ inv
    exact ⟨rfl, fun _ => inv, fun h => by simp [scanDirs] at h⟩
  | cons d rest ih =>
    intro st hds inv
    have hd4 : d < 4 := hds d (List.mem_cons_self _ _)
    have hrest : ∀ e ∈ rest, e < 4 := fun e h => hds e (List.mem_cons_of_mem _ h)
    rw [scanDirs]
    dsimp only
    by_cases hg : is_valid g (nbr (cr, cc) d).1 (nbr (cr, cc) d).2 = true ∧
        nbr (cr, cc) d ∉ st.visited
    · rw [if_pos hg]
      obtain ⟨hvv, hnv⟩ := hg
      have hdmem : d ∈ ([0, 1, 2, 3] : List Nat) := by simp only [List.mem_cons]; omega
      have hadj : adjacent (cr, cc) (nbr (cr, cc) d) := ⟨d, hdmem, rfl⟩
      have hvq : nbr (cr, cc) d ∉ st.queue := fun h => hnv (inv.qVis _ h)
      have hvp : nbr (cr, cc) d ∉ st.pushed := fun h => hnv (inv.pVis _ h)
      have hvu : nbr (cr, cc) d ≠ (cr, cc) := fun h => hnv (by rw [h]; exact inv.uVis)
      have hvs : nbr (cr, cc) d ≠ (g.sr, g.sc) := fun h => hnv (by rw [h]; exact inv.startVis)
      have hDv : Dist g (nbr (cr, cc) d) (ku + 1) := by
        constructor
        · exact Wk_snoc inv.uDist.1 _ hadj hvv
        · intro n hn
          obtain ⟨x, hx, m, hm, hmn⟩ := walk_lb inv.closure hn inv.startVis hnv
          rcases hx with hxQ | rfl
          · obtain ⟨mx, hge, hdx⟩ := QLevels_mem_ge inv.levels x hxQ
            have h1 : mx ≤ m := hdx.2 hm
            omega
          · have h1 : ku ≤ m := inv.uDist.2 hm
            omega
      set st1 : BfsSt := bqPush (nbr (cr, cc) d)
        { st with visited := insert (nbr (cr, cc) d) st.visited,
                  par := Function.update st.par (nbr (cr, cc) d) (cr, cc) } with hst1
      have hq1 : st1.queue = st.queue ++ [nbr (cr, cc) d] := by rw [hst1]; rfl
      have hv1 : st1.visited = insert (nbr (cr, cc) d) st.visited := by rw [hst1]; rfl
      have hp1 : st1.par = Function.update st.par (nbr (cr, cc) d) (cr, cc) := by rw [hst1]; rfl
      have hpu1 : st1.pushed = st.pushed ++ [nbr (cr, cc) d] := by rw [hst1]; rfl
      have hmx1 : st1.maxPend = max st.maxPend (st.queue.length + 1) := by rw [hst1]; rfl
      have hmeas : bmeasure g st1 = bmeasure g st := by
        have hvmem : nbr (cr, cc) d ∈ validFinset g \ st.visited :=
          Finset.mem_sdiff.mpr ⟨mem_validFinset.mpr hvv, hnv⟩
        have hset : validFinset g \ st1.visited = (validFinset g \ st.visited).erase (nbr (cr, cc) d) := by
          rw [hv1]
          ext x
          simp only [Finset.mem_sdiff, Finset.mem_insert, Finset.mem_erase]
          tauto
        have hcard : 0 < (validFinset g \ st.visited).card := Finset.card_pos.mpr ⟨_, hvmem⟩
        unfold bmeasure
        rw [hset, Finset.card_erase_of_mem hvmem, hq1, List.length_append]
        simp only [List.length_singleton]
        omega
      have visDepth1 : ∀ w ∈ st1.visited, ∃ n, Dist g w n ∧ ParOk g st1.par n w := by
        intro w hw
        rw [hv1] at hw
        rw [hp1]
        rcases Finset.mem_insert.mp hw with rfl | hwold
        · refine ⟨ku + 1, hDv, ?_, hvv, ?_, ?_⟩
          · exact hvs
          · rw [Function.update_same]
            exact hadj
          · rw [Function.update_same]
            obtain ⟨n, hDn, hPn⟩ := inv.visDepth (cr, cc) inv.uVis
            have hnk : n = ku := Dist_unique hDn inv.uDist
            subst hnk
            exact ParOk_update inv.parVis hnv (cr, cc) inv.uVis hPn
        · obtain ⟨n, hDn, hPn⟩ := inv.visDepth w hwold
          exact ⟨n, hDn, ParOk_update inv.parVis hnv (cr, cc) hwold hPn⟩
      have parVis1 : ∀ w ∈ st1.visited, w ≠ (g.sr, g.sc) → st1.par w ∈ st1.visited := by
        intro w hw hws
        rw [hv1] at hw ⊢
        rw [hp1]
        rcases Finset.mem_insert.mp hw with rfl | hwold
        · rw [Function.update_same]
          exact Finset.mem_insert_of_mem inv.uVis
        · have hwv : w ≠ nbr (cr, cc) d := fun h => hnv (h ▸ hwold)
          rw [Function.update_noteq hwv]
          exact Finset.mem_insert_of_mem (inv.parVis w hwold hws)
      have nodupQ1 : st1.queue.Nodup := by
        rw [hq1, List.nodup_append]
        refine ⟨inv.nodupQ, List.nodup_singleton _, ?_⟩
        intro x hx hx2
        rw [List.mem_singleton] at hx2
        exact hvq (hx2 ▸ hx)
      have qVis1 : ∀ w ∈ st1.queue, w ∈ st1.visited := by
        intro w hw
        rw [hq1] at hw
        rw [hv1]
        rcases List.mem_append.mp hw with h1 | h1
        · exact Finset.mem_insert_of_mem (inv.qVis w h1)
        · rw [List.mem_singleton.mp h1]
          exact Finset.mem_insert_self _ _
      have visValid1 : ∀ w ∈ st1.visited, is_valid g w.1 w.2 = true := by
        intro w hw
        rw [hv1] at hw
        rcases Finset.mem_insert.mp hw with rfl | hwold
        · exact hvv
        · exact inv.visValid w hwold
      have startVis1 : (g.sr, g.sc) ∈ st1.visited := by
        rw [hv1]
        exact Finset.mem_insert_of_mem inv.startVis
      have uVis1 : (cr, cc) ∈ st1.visited := by
        rw [hv1]
        exact Finset.mem_insert_of_mem inv.uVis
      have uNotQ1 : (cr, cc) ∉ st1.queue := by
        rw [hq1]
        intro h
        rcases List.mem_append.mp h with h1 | h1
        · exact inv.uNotQ h1
        · exact hvu (List.mem_singleton.mp h1).symm
      have closure1 : ∀ x ∈ st1.visited, x ∉ st1.queue → x ≠ (cr, cc) → ∀ y,
          adjacent x y → is_valid g y.1 y.2 = true → y ∈ st1.visited := by
        intro x hx hxq hxu y hady hvy
        rw [hv1] at hx ⊢
        rw [hq1] at hxq
        rcases Finset.mem_insert.mp hx with rfl | hxold
        · exact absurd (List.mem_append.mpr (Or.inr (List.mem_singleton.mpr rfl))) hxq
        · have hxq2 : x ∉ st.queue := fun h => hxq (List.mem_append.mpr (Or.inl h))
          exact Finset.mem_insert_of_mem (inv.closure x hxold hxq2 hxu y hady hvy)
      have uNbr1 : ∀ v : Cell, adjacent (cr, cc) v → is_valid g v.1 v.2 = true →
          (∃ e ∈ rest, v = nbr (cr, cc) e) ∨ v ∈ st1.visited := by
        intro v hadv hvvy
        rw [hv1]
        rcases inv.uNbr v hadv hvvy with ⟨e, he, hveq⟩ | hvis
        · rcases List.mem_cons.mp he with rfl | her
          · right
            rw [hveq]
            exact Finset.mem_insert_self _ _
          · exact Or.inl ⟨e, her, hveq⟩
        · exact Or.inr (Finset.mem_insert_of_mem hvis)
      have levels1 : QLevels g st1.queue ku := by
        rw [hq1]
        exact QLevels_append inv.levels hDv
      have pNodup1 : st1.pushed.Nodup := by
        rw [hpu1, List.nodup_append]
        refine ⟨inv.pNodup, List.nodup_singleton _, ?_⟩
        intro x hx hx2
        rw [List.mem_singleton] at hx2
        exact hvp (hx2 ▸ hx)
      have pVis1 : ∀ w ∈ st1.pushed, w ∈ st1.visited := by
        intro w hw
        rw [hpu1] at hw
        rw [hv1]
        rcases List.mem_append.mp hw with h1 | h1
        · exact Finset.mem_insert_of_mem (inv.pVis w h1)
        · rw [List.mem_singleton.mp h1]
          exact Finset.mem_insert_self _ _
      have qPushed1 : ∀ w ∈ st1.queue, w ∈ st1.pushed := by
        intro w hw
        rw [hq1] at hw
        rw [hpu1]
        rcases List.mem_append.mp hw with h1 | h1
        · exact List.mem_append.mpr (Or.inl (inv.qPushed w h1))
        · exact List.mem_append.mpr (Or.inr h1)
      have mp1 : st1.maxPend ≤ st1.pushed.length := by
        rw [hmx1, hpu1, List.length_append]
        simp only [List.length_singleton]
        have h1 : st.queue.length ≤ st.pushed.length :=
          sub_nodup_length_le inv.nodupQ inv.qPushed
        have h2 : st.maxPend ≤ st.pushed.length := inv.mp
        omega
      by_cases hex : (nbr (cr, cc) d).1 = g.er ∧ (nbr (cr, cc) d).2 = g.ec
      · rw [if_pos hex]
        refine ⟨hmeas, fun h => by simp at h, fun _ => ?_⟩
        have hev : (g.er, g.ec) = nbr (cr, cc) d :=
          Prod.ext_iff.mpr ⟨hex.1.symm, hex.2.symm⟩
        have hPv : ParOk g st1.par (ku + 1) (nbr (cr, cc) d) := by
          rw [hp1]
          refine ⟨hvs, hvv, ?_, ?_⟩
          · rw [Function.update_same]
            exact hadj
          · rw [Function.update_same]
            obtain ⟨n, hDn, hPn⟩ := inv.visDepth (cr, cc) inv.uVis
            have hnk : n = ku := Dist_unique hDn inv.uDist
            subst hnk
            exact ParOk_update inv.parVis hnv (cr, cc) inv.uVis hPn
        refine ⟨⟨ku + 1, hev ▸ hDv, hev ▸ hPv⟩, pNodup1, ?_, mp1⟩
        intro w hw
        exact visValid1 w (pVis1 w hw)
      · rw [if_neg hex]
        have exitNot1 : (g.er, g.ec) ∉ st1.visited := by
          rw [hv1]
          intro h
          rcases Finset.mem_insert.mp h with h1 | h1
          · exact hex ⟨(congrArg Prod.fst h1).symm, (congrArg Prod.snd h1).symm⟩
          · exact inv.exitNot h1
        have inv1 : MidInv g (cr, cc) ku rest st1 :=
          { nodupQ := nodupQ1, qVis := qVis1, visValid := visValid1,
            startVis := startVis1, visDepth := visDepth1, parVis := parVis1,
            uVis := uVis1, uNotQ := uNotQ1, uDist := inv.uDist,
            closure := closure1, uNbr := uNbr1, levels := levels1,
            exitNot := exitNot1, pNodup := pNodup1, pVis := pVis1,
            qPushed := qPushed1, mp := mp1 }
        obtain ⟨hm2, hfalse2, htrue2⟩ := ih st1 hrest inv1
        exact ⟨by rw [hm2, hmeas], hfalse2, htrue2⟩
    · rw [if_neg hg]
      push_neg at hg
      have uNbr2 : ∀ v : Cell, adjacent (cr, cc) v → is_valid g v.1 v.2 = true →
          (∃ e ∈ rest, v = nbr (cr, cc) e) ∨ v ∈ st.visited := by
        intro v hadv hvvy
        rcases inv.uNbr v hadv hvvy with ⟨e, he, hveq⟩ | hvis
        · rcases List.mem_cons.mp he with rfl | her
          · right
            rw [hveq]
            exact hg (hveq ▸ hvvy)
          · exact Or.inl ⟨e, her, hveq⟩
        · exact Or.inr hvis
      exact ih st hrest { inv with uNbr := uNbr2 }


/-- The BFS `while` loop, run with more fuel than the termination measure:
it always yields an answer; on `found` the exit's recorded parent chain
has length exactly the exit's graph distance; on exhaustion the queue is
empty and the invariant still holds (so the visited set is closed); the
ghost push-trace facts hold in either case. -/
theorem bfsLoop_spec (g : G) :
    ∀ (fuel : Nat) (st : BfsSt), BCore g st → bmeasure g st < fuel →
      ∃ st' found, bfsLoop g fuel st = some (st', found) ∧
        GhostOk g st' ∧
        (found = true → ∃ n, Dist g (g.er, g.ec) n ∧ ParOk g st'.par n (g.er, g.ec)) ∧
        (found = false → st'.queue = [] ∧ BCore g st') := by
  intro fuel
  induction fuel with
  | zero => intro st _ hlt; omega
  | succ fuel ih =>
    intro st core hlt
    rcases hq : st.queue with _ | ⟨⟨cr, cc⟩, q'⟩
    · refine ⟨st, false, ?_, ?_, fun h => by simp at h, fun _ => ⟨hq, core⟩⟩
      · rw [bfsLoop, hq]
      · exact ⟨core.pNodup, fun v hv => core.visValid v (core.pVis v hv), core.mp⟩
    · obtain ⟨k, hlev⟩ := core.levels
      rw [hq] at hlev
      obtain ⟨ku, hku, hlev', -, -⟩ := qlevels_pop hlev
      have hnd := List.nodup_cons.mp (by rw [← hq]; exact core.nodupQ :
        ((cr, cc) :: q').Nodup)
      have invMid : MidInv g (cr, cc) ku [0, 1, 2, 3] { st with queue := q' } :=
        { nodupQ := hnd.2,
          qVis := fun v hv => core.qVis v (by rw [hq]; exact List.mem_cons_of_mem _ hv),
          visValid := core.visValid,
          startVis := core.startVis,
          visDepth := core.visDepth,
          parVis := core.parVis,
          uVis := core.qVis (cr, cc) (by rw [hq]; exact List.mem_cons_self _ _),
          uNotQ := hnd.1,
          uDist := hku,
          closure := by
            intro x hx hxq hxu y hady hvy
            refine core.closure x hx ?_ y hady hvy
            rw [hq]
            intro hmem
            rcases List.mem_cons.mp hmem with h1 | h1
            · exact hxu h1
            · exact hxq h1,
          uNbr := fun v hadv _ => Or.inl hadv,
          levels := hlev',
          exitNot := core.exitNot,
          pNodup := core.pNodup,
          pVis := core.pVis,
          qPushed := fun v hv => core.qPushed v (by rw [hq]; exact List.mem_cons_of_mem _ hv),
          mp := core.mp }
      obtain ⟨hmeq, hfalse, htrue⟩ :=
        scanDirs_spec g (cr, cc) ku [0, 1, 2, 3] { st with queue := q' }
          (by decide) invMid
      have hms : bmeasure g { st with queue := q' } + 1 = bmeasure g st := by
        unfold bmeasure
        rw [hq]
        dsimp only
        rw [List.length_cons]
        omega
      dsimp only at hmeq hfalse htrue
      rw [bfsLoop, hq]
      dsimp only
      by_cases hf : (scanDirs g cr cc [0, 1, 2, 3] { st with queue := q' }).2 = true
      · rw [if_pos hf]
        obtain ⟨hdp, hghost⟩ := htrue hf
        exact ⟨_, true, rfl, hghost, fun _ => hdp, fun h => by simp at h⟩
      · rw [if_neg hf]
        have hmid := hfalse (Bool.not_eq_true _ ▸ hf)
        have coreR : BCore g (scanDirs g cr cc [0, 1, 2, 3] { st with queue := q' }).1 :=
          { nodupQ := hmid.nodupQ,
            qVis := hmid.qVis,
            visValid := hmid.visValid,
            startVis := hmid.startVis,
            visDepth := hmid.visDepth,
            parVis := hmid.parVis,
            closure := by
              intro x hx hxq y hady hvy
              by_cases hxu : x = (cr, cc)
              · subst hxu
                rcases hmid.uNbr y hady hvy with ⟨e, he, -⟩ | hvis
                · exact absurd he (List.not_mem_nil e)
                · exact hvis
              · exact hmid.closure x hx hxq hxu y hady hvy,
            levels := ⟨ku, hmid.levels⟩,
            exitNot := hmid.exitNot,
            pNodup := hmid.pNodup,
            pVis := hmid.pVis,
            qPushed := hmid.qPushed,
            mp := hmid.mp }
        exact ih _ coreR (by omega)


/-- The idealized parent chain of length `n + 1` ending at `v` (the list
the backward walk of `mark_shortest_path` traverses, in start-to-exit
order, once the fuel is known to suffice). -/
def parChain (par : Cell → Cell) : Nat → Cell → List Cell
  | 0, v => [v]
  | n + 1, v => parChain par n (par v) ++ [v]

/-- A cell with a parent chain is valid. -/
theorem ParOk_valid {g : G} {par : Cell → Cell} (hs : is_valid g g.sr g.sc = true) :
    ∀ {n : Nat} {v : Cell}, ParOk g par n v → is_valid g v.1 v.2 = true := by
  intro n v h
  cases n with
  | zero =>
    have hv : v = (g.sr, g.sc) := h
    rw [hv]
    exact hs
  | succ n => exact h.2.1

/-- On a cell with a parent chain of length `n`, the fuelled backward walk
`parWalk` with fuel at least `n` computes exactly the parent chain. -/
theorem parWalk_eq {g : G} {par : Cell → Cell} :
    ∀ {n : Nat} {v : Cell} {fuel : Nat}, ParOk g par n v → n ≤ fuel →
      parWalk g par fuel v = parChain par n v := by
  intro n
  induction n with
  | zero =>
    intro v fuel h _
    have hv : v = (g.sr, g.sc) := h
    cases fuel with
    | zero => rw [parWalk, parChain]
    | succ f => rw [parWalk, if_pos hv, parChain]
  | succ n ih =>
    intro v fuel h hle
    obtain ⟨hne, -, -, hp⟩ := h
    cases fuel with
    | zero => omega
    | succ f => rw [parWalk, if_neg hne, ih hp (by omega), parChain]

/-- On a cell with a parent chain of length `n`, `markLenAux` with fuel at
least `n` reports exactly `n`. -/
theorem markLen_spec {g : G} {par : Cell → Cell} :
    ∀ {n : Nat} {v : Cell} {fuel : Nat}, ParOk g par n v → n ≤ fuel →
      markLenAux g par fuel v = some n := by
  intro n
  induction n with
  | zero =>
    intro v fuel h _
    have hv : v = (g.sr, g.sc) := h
    cases fuel with
    | zero => rw [markLenAux, if_pos hv]
    | succ f => rw [markLenAux, if_pos hv]
  | succ n ih =>
    intro v fuel h hle
    obtain ⟨hne, -, -, hp⟩ := h
    cases fuel with
    | zero => omega
    | succ f =>
      rw [markLenAux, if_neg hne, ih hp (by omega)]
      rfl

/-- Everything claim C2 needs of the parent chain: its length is the
chain's depth plus one, it runs from the start to its end cell, its
members all carry parent chains (hence are valid), consecutive members
are adjacent, and no cell repeats. -/
theorem parChain_spec {g : G} {par : Cell → Cell} (hs : is_valid g g.sr g.sc = true) :
    ∀ {n : Nat} {v : Cell}, ParOk g par n v →
      (parChain par n v).length = n + 1 ∧
      (parChain par n v).head? = some (g.sr, g.sc) ∧
      (parChain par n v).getLast? = some v ∧
      (∀ x ∈ parChain par n v, ∃ i, i ≤ n ∧ ParOk g par i x) ∧
      List.Chain' adjacent (parChain par n v) ∧
      (parChain par n v).Nodup := by
  intro n
  induction n with
  | zero =>
    intro v h
    have hv : v = (g.sr, g.sc) := h
    refine ⟨rfl, by rw [hv]; rfl, rfl, ?_, List.chain'_singleton v, List.nodup_singleton v⟩
    intro x hx
    rw [parChain, List.mem_singleton] at hx
    subst hx
    exact ⟨0, le_refl 0, h⟩
  | succ n ih =>
    intro v h
    obtain ⟨hne, hvv, hadj, hp⟩ := h
    obtain ⟨hlen, hhead, hlast, hmemd, hchain, hnodup⟩ := ih hp
    have hmemd2 : ∀ x ∈ parChain par (n + 1) v, ∃ i, i ≤ n + 1 ∧ ParOk g par i x := by
      intro x hx
      rw [parChain] at hx
      rcases List.mem_append.mp hx with h1 | h1
      · obtain ⟨i, hi, hPi⟩ := hmemd x h1
        exact ⟨i, by omega, hPi⟩
      · rw [List.mem_singleton] at h1
        subst h1
        exact ⟨n + 1, le_refl _, hne, hvv, hadj, hp⟩
    refine ⟨?_, ?_, ?_, hmemd2, ?_, ?_⟩
    · rw [parChain, List.length_append, hlen]
      rfl
    · rw [parChain]
      rcases hcons : parChain par n (par v) with _ | ⟨a, t⟩
      · rw [hcons] at hlen
        simp at hlen
      · rw [hcons, List.head?_cons] at hhead
        rw [List.cons_append, List.head?_cons]
        exact hhead
    · rw [parChain, List.getLast?_concat]
    · rw [parChain, List.chain'_append]
      refine ⟨hchain, List.chain'_singleton v, ?_⟩
      intro x hx y hy
      rw [hlast, Option.mem_some_iff] at hx
      rw [List.head?_cons, Option.mem_some_iff] at hy
      subst hx
      subst hy
      exact hadj
    · rw [parChain, List.nodup_append]
      refine ⟨hnodup, List.nodup_singleton v, ?_⟩
      intro x hx hx2
      rw [List.mem_singleton] at hx2
      subst hx2
      obtain ⟨i, hi, hPi⟩ := hmemd x hx
      have : i = n + 1 := ParOk_unique hPi ⟨hne, hvv, hadj, hp⟩
      omega

/-- A duplicate-free list of valid cells is no longer than the number of
valid cells of the grid. -/
theorem nodup_valid_length_le {g : G} {l : List Cell} (hnd : l.Nodup)
    (hval : ∀ x ∈ l, is_valid g x.1 x.2 = true) :
    l.length ≤ (validFinset g).card := by
  calc l.length = l.toFinset.card := (List.toFinset_card_of_nodup hnd).symm
    _ ≤ (validFinset g).card := Finset.card_le_card (by
        intro x hx
        rw [List.mem_toFinset] at hx
        exact mem_validFinset.mpr (hval x hx))

/-- The initial BFS state, spelled out. -/
theorem bfsInit_eq (g : G) : bfsInit g =
    { queue := [(g.sr, g.sc)], visited := {(g.sr, g.sc)},
      par := fun _ => (-1, -1), pushed := [(g.sr, g.sc)], maxPend := 1 } := rfl

/-- The BFS invariant holds after initialization. -/
theorem bfsInit_core (g : G) (hs : is_valid g g.sr g.sc = true)
    (hne : (g.sr, g.sc) ≠ (g.er, g.ec)) : BCore g (bfsInit g) := by
  have hD0 : Dist g (g.sr, g.sc) 0 := ⟨Wk.nil _ hs, fun n _ => Nat.zero_le n⟩
  rw [bfsInit_eq]
  refine
    { nodupQ := List.nodup_singleton _,
      qVis := ?_, visValid := ?_, startVis := Finset.mem_singleton_self _,
      visDepth := ?_, parVis := ?_, closure := ?_, levels := ?_, exitNot := ?_,
      pNodup := List.nodup_singleton _, pVis := ?_, qPushed := ?_,
      mp := le_refl 1 }
  · intro v hv
    rw [List.mem_singleton] at hv
    rw [hv]
    exact Finset.mem_singleton_self _
  · intro v hv
    rw [Finset.mem_singleton] at hv
    rw [hv]
    exact hs
  · intro v hv
    rw [Finset.mem_singleton] at hv
    subst hv
    exact ⟨0, hD0, rfl⟩
  · intro v hv hvs
    rw [Finset.mem_singleton] at hv
    exact absurd hv hvs
  · intro x hx hxq
    rw [Finset.mem_singleton] at hx
    rw [hx] at hxq
    exact absurd (List.mem_singleton_self _) hxq
  · refine ⟨0, [(g.sr, g.sc)], [], (List.append_nil _).symm, ?_, by simp⟩
    intro v hv
    rw [List.mem_singleton] at hv
    rw [hv]
    exact hD0
  · intro hmem
    rw [Finset.mem_singleton] at hmem
    exact hne hmem.symm
  · intro v hv
    rw [List.mem_singleton] at hv
    rw [hv]
    exact Finset.mem_singleton_self _
  · exact fun v hv => hv

/-- The termination measure after initialization is at most the number of
valid cells. -/
theorem bfsInit_measure (g : G) (hs : is_valid g g.sr g.sc = true) :
    bmeasure g (bfsInit g) ≤ (validFinset g).card := by
  have hmem : (g.sr, g.sc) ∈ validFinset g := mem_validFinset.mpr hs
  have hsub : ({(g.sr, g.sc)} : Finset Cell) ⊆ validFinset g :=
    Finset.singleton_subset_iff.mpr hmem
  have hpos : 0 < (validFinset g).card := Finset.card_pos.mpr ⟨_, hmem⟩
  rw [bfsInit_eq]
  unfold bmeasure
  dsimp only
  rw [Finset.card_sdiff hsub, Finset.card_singleton, List.length_singleton]
  omega

/-- The full run of the BFS search on a successfully loaded grid: the
loop yields an answer within its fuel, the push-trace facts hold, the
grid fits the queue capacity, a successful search records a parent chain
for the exit whose length is the exit's graph distance (itself below the
queue capacity), and a failed search means the exit is unreachable. -/
theorem bfs_run_spec (f : List Char) (g0 g : G)
    (h : load_maze (some f) g0 = (g, true)) :
    ∃ st' found, bfsLoop g (QSIZE + 1) (bfsInit g) = some (st', found) ∧
      GhostOk g st' ∧
      g.rows * g.cols ≤ QSIZE ∧
      (found = true → ∃ n, n ≤ QSIZE ∧ Dist g (g.er, g.ec) n ∧
        ParOk g st'.par n (g.er, g.ec)) ∧
      (found = false → ¬ Reachable g) := by
  obtain ⟨-, hrmax, -, hcmax, -, -, -, -, -⟩ := load_maze_state f g0 g h
  obtain ⟨-, -, -, -, -, -, -, -, -, -, hvS, hvE, hne⟩ := load_maze_valid f g0 g h
  have hcard : (validFinset g).card ≤ g.rows * g.cols := validFinset_card g
  have hQ : g.rows * g.cols ≤ QSIZE := by
    have hmul : g.rows * g.cols ≤ 105 * 104 :=
      Nat.mul_le_mul (by simpa [MAXR] using hrmax) hcmax
    simp only [QSIZE, MAXR, MAXC]
    omega
  have hmeas : bmeasure g (bfsInit g) < QSIZE + 1 := by
    have h1 := bfsInit_measure g hvS
    omega
  obtain ⟨st', found, heq, hghost, htrue, hfalse⟩ :=
    bfsLoop_spec g (QSIZE + 1) (bfsInit g) (bfsInit_core g hvS hne) hmeas
  refine ⟨st', found, heq, hghost, hQ, ?_, ?_⟩
  · intro hf
    obtain ⟨n, hDn, hPn⟩ := htrue hf
    obtain ⟨hlen, -, -, hmemd, -, hnodup⟩ := parChain_spec hvS hPn
    have hval : ∀ x ∈ parChain st'.par n (g.er, g.ec), is_valid g x.1 x.2 = true := by
      intro x hx
      obtain ⟨i, -, hPi⟩ := hmemd x hx
      exact ParOk_valid hvS hPi
    have hlc := nodup_valid_length_le hnodup hval
    exact ⟨n, by omega, hDn, hPn⟩
  · intro hf
    obtain ⟨hqnil, core'⟩ := hfalse hf
    rintro ⟨n, hwk⟩
    refine core'.exitNot (closure_reach ?_ hwk core'.startVis)
    intro x hx y hady hvy
    exact core'.closure x hx (by rw [hqnil]; exact List.not_mem_nil x) y hady hvy


/-- C1.  On every successfully loaded grid, `bfs_shortest` reports "No
path exists!" exactly when the exit is unreachable from the start in the
4-connected passable subgraph; otherwise the length it reports is the
true graph distance (least number of edges of any walk) from start to
exit; and the search never hangs. -/
theorem bfs_reports_distance (f : List Char) (g0 g : G)
    (h : load_maze (some f) g0 = (g, true)) :
    (bfs_shortest g = BfsOut.noPath ↔ ¬ Reachable g) ∧
    (∀ L : Nat, bfs_shortest g = BfsOut.pathLen L → Dist g (g.er, g.ec) L) ∧
    bfs_shortest g ≠ BfsOut.hang := by
  obtain ⟨st', found, heq, -, -, htrue, hfalse⟩ := bfs_run_spec f g0 g h
  cases found with
  | true =>
    obtain ⟨n, hnQ, hDn, hPn⟩ := htrue rfl
    have hml : markLenAux g st'.par (QSIZE + 1) (g.er, g.ec) = some n :=
      markLen_spec hPn (by omega)
    have hbs : bfs_shortest g = BfsOut.pathLen n := by
      rw [bfs_shortest, heq]
      dsimp only
      rw [hml]
    rw [hbs]
    refine ⟨⟨fun hcon => absurd hcon (by simp), fun hcon => absurd ⟨n, hDn.1⟩ hcon⟩,
      ?_, by simp⟩
    intro L hL
    have hnL : n = L := by simpa using hL
    subst hnL
    exact hDn
  | false =>
    have hbs : bfs_shortest g = BfsOut.noPath := by
      rw [bfs_shortest, heq]
    rw [hbs]
    exact ⟨⟨fun _ => hfalse rfl, fun _ => rfl⟩, fun L hL => absurd hL (by simp), by simp⟩

/-- Witness for `bfs_reports_distance`: the 1×2 grid `"SE"` loads
successfully, and the theorem applies to it. -/
theorem bfs_reports_distance_witness :
    (bfs_shortest (load_maze (some ['S', 'E']) gEmpty).1 = BfsOut.noPath ↔
      ¬ Reachable (load_maze (some ['S', 'E']) gEmpty).1) ∧
    (∀ L : Nat, bfs_shortest (load_maze (some ['S', 'E']) gEmpty).1 = BfsOut.pathLen L →
      Dist (load_maze (some ['S', 'E']) gEmpty).1
        ((load_maze (some ['S', 'E']) gEmpty).1.er,
         (load_maze (some ['S', 'E']) gEmpty).1.ec) L) ∧
    bfs_shortest (load_maze (some ['S', 'E']) gEmpty).1 ≠ BfsOut.hang :=
  bfs_reports_distance ['S', 'E'] gEmpty (load_maze (some ['S', 'E']) gEmpty).1
    (Prod.ext rfl (by decide))

/-- C2.  Whenever `bfs_shortest` finds the exit (reporting length `L`),
the cell sequence obtained by walking parent links backward from the
exit — `bfs_path`, listed in start-to-exit order — starts at the start,
ends at the exit, each consecutive pair is one cardinal move apart, every
cell is in bounds and passable, no cell repeats, and its length is
`L + 1`. -/
theorem bfs_parent_walk_path (f : List Char) (g0 g : G) (L : Nat)
    (h : load_maze (some f) g0 = (g, true))
    (hL : bfs_shortest g = BfsOut.pathLen L) :
    (bfs_path g).head? = some (g.sr, g.sc) ∧
    (bfs_path g).getLast? = some (g.er, g.ec) ∧
    List.Chain' adjacent (bfs_path g) ∧
    (∀ x ∈ bfs_path g, is_valid g x.1 x.2 = true) ∧
    (bfs_path g).Nodup ∧
    (bfs_path g).length = L + 1 := by
  obtain ⟨-, -, -, -, -, -, -, -, -, -, hvS, -, -⟩ := load_maze_valid f g0 g h
  obtain ⟨st', found, heq, -, -, htrue, hfalse⟩ := bfs_run_spec f g0 g h
  cases found with
  | false =>
    have hbs : bfs_shortest g = BfsOut.noPath := by
      rw [bfs_shortest, heq]
    rw [hbs] at hL
    exact absurd hL (by simp)
  | true =>
    obtain ⟨n, hnQ, hDn, hPn⟩ := htrue rfl
    have hml : markLenAux g st'.par (QSIZE + 1) (g.er, g.ec) = some n :=
      markLen_spec hPn (by omega)
    have hbs : bfs_shortest g = BfsOut.pathLen n := by
      rw [bfs_shortest, heq]
      dsimp only
      rw [hml]
    have hnL : n = L := by
      rw [hbs] at hL
      simpa using hL
    have hbp : bfs_path g = parChain st'.par n (g.er, g.ec) := by
      rw [bfs_path, heq]
      exact parWalk_eq hPn (by omega)
    obtain ⟨hlen, hhead, hlast, hmemd, hchain, hnodup⟩ := parChain_spec hvS hPn
    rw [hbp]
    subst hnL
    refine ⟨hhead, hlast, hchain, ?_, hnodup, hlen⟩
    intro x hx
    obtain ⟨i, -, hPi⟩ := hmemd x hx
    exact ParOk_valid hvS hPi

/-- Witness for `bfs_parent_walk_path`: on the loaded 1×3 grid `"S.E"`
the search reports length 2, and the theorem applies. -/
theorem bfs_parent_walk_path_witness :
    (bfs_path (load_maze (some ['S', '.', 'E']) gEmpty).1).head? =
      some ((load_maze (some ['S', '.', 'E']) gEmpty).1.sr,
            (load_maze (some ['S', '.', 'E']) gEmpty).1.sc) ∧
    (bfs_path (load_maze (some ['S', '.', 'E']) gEmpty).1).getLast? =
      some ((load_maze (some ['S', '.', 'E']) gEmpty).1.er,
            (load_maze (some ['S', '.', 'E']) gEmpty).1.ec) ∧
    List.Chain' adjacent (bfs_path (load_maze (some ['S', '.', 'E']) gEmpty).1) ∧
    (∀ x ∈ bfs_path (load_maze (some ['S', '.', 'E']) gEmpty).1,
      is_valid (load_maze (some ['S', '.', 'E']) gEmpty).1 x.1 x.2 = true) ∧
    (bfs_path (load_maze (some ['S', '.', 'E']) gEmpty).1).Nodup ∧
    (bfs_path (load_maze (some ['S', '.', 'E']) gEmpty).1).length = 2 + 1 :=
  bfs_parent_walk_path ['S', '.', 'E'] gEmpty
    (load_maze (some ['S', '.', 'E']) gEmpty).1 2
    (Prod.ext rfl (by decide)) (by decide)

/-- C10.  On every successfully loaded grid the BFS run is queue-safe:
each cell is enqueued at most once (the push trace has no duplicate), so
the number of pushes is at most `rows * cols`, which is at most `QSIZE`;
the number of simultaneously pending queue entries never exceeds the
number of pushes (hence never `QSIZE`, so the circular queue of the
source never overwrites an entry that has not been popped); and the loop
terminates, yielding an answer within `QSIZE + 1` dequeue steps. -/
theorem bfs_queue_safety (f : List Char) (g0 g : G)
    (h : load_maze (some f) g0 = (g, true)) :
    ∃ st' found, bfsLoop g (QSIZE + 1) (bfsInit g) = some (st', found) ∧
      st'.pushed.Nodup ∧
      st'.pushed.length ≤ g.rows * g.cols ∧
      g.rows * g.cols ≤ QSIZE ∧
      st'.maxPend ≤ st'.pushed.length ∧
      st'.maxPend ≤ QSIZE := by
  obtain ⟨st', found, heq, ⟨hnd, hval, hmp⟩, hQ, -, -⟩ := bfs_run_spec f g0 g h
  have hlc := nodup_valid_length_le hnd hval
  have hcard := validFinset_card g
  exact ⟨st', found, heq, hnd, by omega, hQ, hmp, by omega⟩

/-- Witness for `bfs_queue_safety`: the loaded 1×2 grid `"SE"`. -/
theorem bfs_queue_safety_witness :
    ∃ st' found,
      bfsLoop (load_maze (some ['S', 'E', '\n']) gEmpty).1 (QSIZE + 1)
          (bfsInit (load_maze (some ['S', 'E', '\n']) gEmpty).1) = some (st', found) ∧
      st'.pushed.Nodup ∧
      st'.pushed.length ≤ (load_maze (some ['S', 'E', '\n']) gEmpty).1.rows *
        (load_maze (some ['S', 'E', '\n']) gEmpty).1.cols ∧
      (load_maze (some ['S', 'E', '\n']) gEmpty).1.rows *
        (load_maze (some ['S', 'E', '\n']) gEmpty).1.cols ≤ QSIZE ∧
      st'.maxPend ≤ st'.pushed.length ∧
      st'.maxPend ≤ QSIZE :=
  bfs_queue_safety ['S', 'E', '\n'] gEmpty (load_maze (some ['S', 'E', '\n']) gEmpty).1
    (Prod.ext rfl (by decide))

end MazeC
